import Mathlib

/-!
# Block Blast (console): the game-state engine of `src/block_blast.cpp`

A shallow embedding of `struct Game`: pieces and their geometry, the 8x8 board,
the tray of three offers, and the body of the input loop of `Game::run`.

Modelling conventions.

* C++ `int` and `long long` values are mathematical integers (`Int`) in the
  definitions of the engine.  This is exact as long as no operation leaves the
  range of the machine type.  Where a function is stated for arguments that can
  overflow (`canPlace`, `normalize`, `rotated90` on arbitrary pieces and
  origins), namespace `Machine` gives the 32-bit version, and the theorems about
  arbitrary arguments are stated on it; `machine_agrees_of_reachable` shows
  that the two coincide on every state the game can reach.
* `int board[H][W]` is a total function `Fin 8 → Fin 8 → Int`, row first, as in
  `board[y][x]`.  An access outside the array is undefined behaviour: the
  reading code always guards it by `inBounds`; the unguarded writer
  `placePiece` returns `none` when it would leave the array.
* `selected` only ever holds `0`, `1`, `2` or a value reduced modulo 3, and
  indexes `std::array<Piece, 3>`; it is a `Fin 3`.
* The random generator is an oracle: every call that may draw random numbers
  takes the drawn values (`Draws`) as an argument.
* Rendering, sleeping and key decoding have no effect on the state and are
  left out.
-/

namespace BlockBlast

/-! ## Data model -/

/-- Board width, `static constexpr int W = 8`. -/
abbrev W : Nat := 8

/-- Board height, `static constexpr int H = 8`. -/
abbrev H : Nat := 8

/-- A relative cell, `struct Pt { int x, y; }`. -/
structure Pt where
  x : Int
  y : Int
  deriving DecidableEq, Repr

/-- Colour ids of `rlutil.h` used by the game (the enum of the rlutil library:
`LIGHTBLUE = 9`, `LIGHTGREEN = 10`, `LIGHTCYAN = 11`, `LIGHTMAGENTA = 13`,
`YELLOW = 14`, `WHITE = 15`). -/
def WHITE : Int := 15

/-- A piece, `struct Piece`: relative cells, a colour id and the used flag. -/
structure Piece where
  cells : List Pt
  color : Int
  used : Bool
  deriving DecidableEq, Repr

/-- The grid `int board[H][W]`; `b r c` is `board[r][c]`, and `0` means empty. -/
abbrev Board := Fin H → Fin W → Int

/-- The state of `struct Game` that the engine reads and writes. -/
structure Game where
  board : Board
  score : Int
  best : Int
  offers : Fin 3 → Piece
  selected : Fin 3
  cursorX : Int
  cursorY : Int
  firstDeal : Bool

/-! ## Board access -/

/-- The bounds test `Game::inBounds`. -/
def inBounds (x y : Int) : Bool :=
  decide (x ≥ 0) && decide (x < (W : Int)) && decide (y ≥ 0) && decide (y < (H : Int))

/-- The row index of an in-bounds `y`. -/
def rowIdx (x y : Int) (h : inBounds x y = true) : Fin H :=
  ⟨y.toNat, by
    simp only [inBounds, Bool.and_eq_true, decide_eq_true_eq, W, H, Nat.cast_ofNat] at h
    show y.toNat < 8
    omega⟩

/-- The column index of an in-bounds `x`. -/
def colIdx (x y : Int) (h : inBounds x y = true) : Fin W :=
  ⟨x.toNat, by
    simp only [inBounds, Bool.and_eq_true, decide_eq_true_eq, W, H, Nat.cast_ofNat] at h
    show x.toNat < 8
    omega⟩

/-- The read `board[y][x]` at a position known to be inside the array. -/
def Board.cell (b : Board) (x y : Int) (h : inBounds x y = true) : Int :=
  b (rowIdx x y h) (colIdx x y h)

/-- The write `board[r][c] = v`. -/
def Board.set (b : Board) (r : Fin H) (c : Fin W) (v : Int) : Board :=
  fun r' c' => if r' = r ∧ c' = c then v else b r' c'

/-! ## Placement -/

/-- The loop of `Game::canPlace` over the cells of the piece, with the sums
`x + c.x`, `y + c.y` in exact arithmetic (`Machine.canPlaceLoop` reduces them to
32 bits). -/
def canPlaceLoop (b : Board) (x y : Int) : List Pt → Bool
  | [] => true
  | c :: cs =>
    let bx := x + c.x
    let by_ := y + c.y
    if h : inBounds bx by_ = true then
      if b.cell bx by_ h != 0 then false
      else canPlaceLoop b x y cs
    else false

/-- The test `Game::canPlace`: a `const` member, it reads the board and returns
a flag; it has no state to return. -/
def canPlace (g : Game) (p : Piece) (x y : Int) : Bool :=
  canPlaceLoop g.board x y p.cells

/-- The loop of `Game::placePiece`: each cell is written with the colour and
adds 10 to the score.  The write is not guarded in the source; a write outside
the array ends the run with `none`. -/
def placeLoop (color : Int) (x y : Int) : List Pt → Board → Int → Option (Board × Int)
  | [], b, s => some (b, s)
  | c :: cs, b, s =>
    let bx := x + c.x
    let by_ := y + c.y
    if h : inBounds bx by_ = true then
      placeLoop color x y cs (b.set (rowIdx bx by_ h) (colIdx bx by_ h) color) (s + 10)
    else none

/-- The mutation `Game::placePiece`. -/
def placePiece (g : Game) (p : Piece) (x y : Int) : Option Game :=
  match placeLoop p.color x y p.cells g.board g.score with
  | some (b, s) => some { g with board := b, score := s }
  | none => none

/-- The search `Game::anyMovePossible`: the first unused offer that fits at one
of the 64 origins ends the loops with `true`. -/
def anyMovePossible (g : Game) : Bool :=
  (List.finRange 3).any fun i =>
    !(g.offers i).used &&
      (List.range H).any fun y =>
        (List.range W).any fun x => canPlace g (g.offers i) (x : Int) (y : Int)

/-! ## Geometry -/

/-- The comparator handed to `std::sort` in `Game::normalize`. -/
def cellLess (a b : Pt) : Bool :=
  if a.y ≠ b.y then decide (a.y < b.y) else decide (a.x < b.x)

/-- The order `std::sort` establishes: `a` may stand before `b` when `b` is not
less than `a`.  Two cells that the comparator cannot tell apart are equal, so
the sorted sequence is unique and any sorting algorithm returns it. -/
def cellLe (a b : Pt) : Prop := cellLess b a = false

instance : DecidableRel cellLe := fun a b => inferInstanceAs (Decidable (cellLess b a = false))

/-- The call `std::sort(p.cells.begin(), p.cells.end(), cmp)`. -/
def sortCells (cs : List Pt) : List Pt := cs.insertionSort cellLe

/-- The first loop of `Game::normalize`: both minima start at `1e9`. -/
def minXY (cs : List Pt) : Int × Int :=
  cs.foldl (fun m c => (min m.1 c.x, min m.2 c.y)) (1000000000, 1000000000)

/-- The procedure `Game::normalize` (the piece is updated in place in the
source and returned here), with the subtractions in exact arithmetic
(`Machine.normalize` reduces them to 32 bits). -/
def normalize (p : Piece) : Piece :=
  let m := minXY p.cells
  { p with cells := sortCells (p.cells.map fun c => ⟨c.x - m.1, c.y - m.2⟩) }

/-- The rotation `Game::rotated90`, `(x, y) -> (y, -x)` followed by `normalize`,
in exact arithmetic (`Machine.rotated90` reduces the negation to 32 bits). -/
def rotated90 (src : Piece) : Piece :=
  normalize { src with cells := src.cells.map fun c => ⟨c.y, -c.x⟩ }

/-! ## Piece catalog -/

/-- The constructor `Game::makePiece`. -/
def makePiece (cells : List Pt) (color : Int) : Piece :=
  normalize { cells := cells, color := color, used := false }

/-- The constructor `Game::makeRect`: rows `y = 0 .. h-1`, each with
`x = 0 .. w-1`.  The source calls it with the constants `(3, 3)` and `(2, 3)`
only; the sizes are natural numbers here. -/
def makeRect (w h : Nat) (color : Int) : Piece :=
  makePiece ((List.range h).flatMap fun y => (List.range w).map fun x => ⟨(x : Int), (y : Int)⟩)
    color

/-- The table `COLORS` of `Game::randomColor`: `LIGHTCYAN`, `LIGHTMAGENTA`,
`LIGHTGREEN`, `YELLOW`, `LIGHTBLUE` with their rlutil ids. -/
def COLORS : Fin 5 → Int
  | 0 => 11
  | 1 => 13
  | 2 => 10
  | 3 => 14
  | 4 => 9

/-- The random numbers one refill may consume: for each slot the index drawn by
`randomColor` (uniform on `0..4`) and the template drawn by `tDist`
(uniform on `0..11`). -/
structure Draws where
  color : Fin 3 → Fin 5
  shape : Fin 3 → Fin 12

/-- The switch of `Game::randomPiece` on the drawn template `t`, with the drawn
colour. -/
def randomPiece (color : Int) (t : Nat) : Piece :=
  match t with
  | 0 => makePiece [⟨0, 0⟩] color
  | 1 => makePiece [⟨0, 0⟩, ⟨1, 0⟩] color
  | 2 => makePiece [⟨0, 0⟩, ⟨0, 1⟩] color
  | 3 => makePiece [⟨0, 0⟩, ⟨1, 0⟩, ⟨2, 0⟩] color
  | 4 => makePiece [⟨0, 0⟩, ⟨0, 1⟩, ⟨0, 2⟩] color
  | 5 => makePiece [⟨0, 0⟩, ⟨1, 0⟩, ⟨0, 1⟩, ⟨1, 1⟩] color
  | 6 => makePiece [⟨0, 0⟩, ⟨1, 0⟩, ⟨2, 0⟩, ⟨3, 0⟩] color
  | 7 => makePiece [⟨0, 0⟩, ⟨0, 1⟩, ⟨0, 2⟩, ⟨0, 3⟩] color
  | 8 => makePiece [⟨0, 0⟩, ⟨0, 1⟩, ⟨1, 1⟩] color
  | 9 => makePiece [⟨1, 0⟩, ⟨0, 1⟩, ⟨1, 1⟩] color
  | 10 => makePiece [⟨0, 0⟩, ⟨1, 0⟩, ⟨2, 0⟩, ⟨0, 1⟩] color
  | 11 => makePiece [⟨0, 0⟩, ⟨1, 0⟩, ⟨2, 0⟩, ⟨1, 1⟩] color
  | _ => makePiece [⟨0, 0⟩] color

/-! ## Offer tray -/

/-- The refill `Game::refillOffers`, with the numbers it draws. -/
def refillOffers (g : Game) (d : Draws) : Game :=
  let g1 : Game := { g with offers := fun i => { g.offers i with used := false } }
  if g1.firstDeal then
    { g1 with
      offers := fun i =>
        match i with
        | 0 => makeRect 3 3 (COLORS (d.color 0))
        | 1 => makeRect 3 3 (COLORS (d.color 1))
        | 2 => makeRect 2 3 (COLORS (d.color 2))
      firstDeal := false
      selected := 0 }
  else
    { g1 with
      offers := fun i => { randomPiece (COLORS (d.color i)) (d.shape i).val with used := false }
      selected := 0 }

/-- The test `Game::allUsed`. -/
def allUsed (g : Game) : Bool :=
  (g.offers 0).used && (g.offers 1).used && (g.offers 2).used

/-- The command `Game::rotateSelected`. -/
def rotateSelected (g : Game) : Game :=
  if (g.offers g.selected).used then g
  else { g with offers := Function.update g.offers g.selected (rotated90 (g.offers g.selected)) }

/-- The loop `for (int k = 0; k < 3; k++)` of `Game::markUsedAndAutoSelect`,
run over the remaining values of `k`. -/
def autoSelectLoop (g : Game) (idx : Fin 3) : List Nat → Game
  | [] => g
  | k :: ks =>
    let j : Fin 3 := ⟨(idx.val + 1 + k) % 3, Nat.mod_lt _ (by decide)⟩
    if !(g.offers j).used then { g with selected := j }
    else autoSelectLoop g idx ks

/-- The procedure `Game::markUsedAndAutoSelect`. -/
def markUsedAndAutoSelect (g : Game) (idx : Fin 3) : Game :=
  autoSelectLoop
    { g with offers := Function.update g.offers idx { g.offers idx with used := true } }
    idx [0, 1, 2]

/-! ## Clearing lines -/

/-- The inner loop of the row scan of `Game::clearLines`: no cell of row `r`
is `0`. -/
def rowFull (b : Board) (r : Fin H) : Bool :=
  (List.finRange W).all fun c => b r c != 0

/-- The inner loop of the column scan of `Game::clearLines`. -/
def colFull (b : Board) (c : Fin W) : Bool :=
  (List.finRange H).all fun r => b r c != 0

/-- The loop `for (int c = 0; c < W; c++) board[r][c] = 0`. -/
def clearRow (b : Board) (r : Fin H) : Board :=
  (List.finRange W).foldl (fun acc c => acc.set r c 0) b

/-- The loop `for (int r = 0; r < H; r++) board[r][c] = 0`. -/
def clearCol (b : Board) (c : Fin W) : Board :=
  (List.finRange H).foldl (fun acc r => acc.set r c 0) b

/-- The vector `fullRows` of `Game::clearLines`. -/
def fullRows (b : Board) : List (Fin H) := (List.finRange H).filter (rowFull b)

/-- The vector `fullCols` of `Game::clearLines`. -/
def fullCols (b : Board) : List (Fin W) := (List.finRange W).filter (colFull b)

/-- The procedure `Game::clearLines`: the new state and the returned count. -/
def clearLines (g : Game) : Game × Int :=
  let rows := fullRows g.board
  let cols := fullCols g.board
  if rows.isEmpty && cols.isEmpty then (g, 0)
  else
    let b1 := rows.foldl clearRow g.board
    let b2 := cols.foldl clearCol b1
    let cleared : Int := (rows.length : Int) + (cols.length : Int)
    ({ g with board := b2, score := g.score + 120 * cleared }, cleared)

/-! ## Game over, reset and the input loop -/

/-- The state change of `Game::gameOverScreen`. -/
def gameOverScreen (g : Game) : Game := { g with best := max g.best g.score }

/-- The procedure `Game::resetGame`. -/
def resetGame (g : Game) (d : Draws) : Game :=
  refillOffers
    { g with
      board := fun _ _ => 0
      score := 0
      selected := 0
      cursorX := 0
      cursorY := 0
      firstDeal := true }
    d

/-- The keys `Game::run` distinguishes. -/
inductive Key where
  | KEY_ESCAPE | KEY_UP | KEY_DOWN | KEY_LEFT | KEY_RIGHT | KEY_ENTER
  | digit1 | digit2 | digit3 | letterR | other
  deriving DecidableEq, Repr

/-- The place command, the `KEY_ENTER` branch of `Game::run`. -/
def placeCommand (g : Game) (d : Draws) : Option Game :=
  if !(g.offers g.selected).used && canPlace g (g.offers g.selected) g.cursorX g.cursorY then
    match placePiece g (g.offers g.selected) g.cursorX g.cursorY with
    | none => none
    | some g1 =>
      let g2 := markUsedAndAutoSelect g1 g1.selected
      let g3 := (clearLines g2).1
      if allUsed g3 then some (refillOffers g3 d) else some g3
  else some g

/-- The key dispatch of `Game::run` for a key other than escape. -/
def handleKey (g : Game) (key : Key) (d : Draws) : Option Game :=
  match key with
  | .KEY_UP => some { g with cursorY := max 0 (g.cursorY - 1) }
  | .KEY_DOWN => some { g with cursorY := min ((H : Int) - 1) (g.cursorY + 1) }
  | .KEY_LEFT => some { g with cursorX := max 0 (g.cursorX - 1) }
  | .KEY_RIGHT => some { g with cursorX := min ((W : Int) - 1) (g.cursorX + 1) }
  | .KEY_ENTER => placeCommand g d
  | .digit1 => some { g with selected := 0 }
  | .digit2 => some { g with selected := 1 }
  | .digit3 => some { g with selected := 2 }
  | .letterR => some (rotateSelected g)
  | _ => some g

/-- One iteration of the `while (!quit)` loop of `Game::run`; `key` is the key
waiting at `kbhit`, if any.  Escape leaves the state as it is and ends the
loop. -/
def loopBody (g : Game) (key : Option Key) (d : Draws) : Option Game :=
  let g1 : Game := { g with best := max g.best g.score }
  if !anyMovePossible g1 then some (resetGame (gameOverScreen g1) d)
  else
    match key with
    | none => some g1
    | some .KEY_ESCAPE => some g1
    | some k => handleKey g1 k d

/-- The value of a freshly constructed `Game` (its default member
initialisers). -/
def newGame : Game :=
  { board := fun _ _ => 0
    score := 0
    best := 0
    offers := fun _ => { cells := [], color := WHITE, used := false }
    selected := 0
    cursorX := 0
    cursorY := 0
    firstDeal := true }

/-- The state at the first loop test of `Game::run`: the opening deal. -/
def openingDeal (d : Draws) : Game := refillOffers newGame d

/-- The states the loop of `Game::run` can be in at its head, when every input
it processes is one that `allowed` admits in the state it arrives in. -/
inductive ReachableBy (allowed : Game → Option Key → Prop) : Game → Prop
  | start (d : Draws) : ReachableBy allowed (openingDeal d)
  | step {g g' : Game} (key : Option Key) (d : Draws) :
      ReachableBy allowed g → allowed g key → loopBody g key d = some g' →
      ReachableBy allowed g'

/-- The states reachable from the opening deal by any inputs. -/
def Reachable : Game → Prop := ReachableBy fun _ _ => True

/-! ## Vocabulary of the geometry proofs -/

/-- The translation `normalize` applies to a cell. -/
def shiftBy (v : Int × Int) (c : Pt) : Pt := ⟨c.x - v.1, c.y - v.2⟩

/-- The quarter turn `rotated90` applies to a cell. -/
def turn (c : Pt) : Pt := ⟨c.y, -c.x⟩

/-- The cell list `normalize` leaves in a piece whose cells were `cs`. -/
def normCells (cs : List Pt) : List Pt := sortCells (cs.map (shiftBy (minXY cs)))

/-- A canonical cell list: sorted by `(y, x)`, with minimum `x` and minimum `y`
both `0`. -/
def Canonical (cs : List Pt) : Prop :=
  cs.Sorted cellLe ∧ (∃ c ∈ cs, c.x = 0) ∧ (∀ c ∈ cs, 0 ≤ c.x) ∧
    (∃ c ∈ cs, c.y = 0) ∧ (∀ c ∈ cs, 0 ≤ c.y)

/-- The list `a` is canonical and a translate of `cs`, up to order. -/
def CanonicalOf (a cs : List Pt) : Prop :=
  Canonical a ∧ ∃ v : Int × Int, a.Perm (cs.map (shiftBy v))

/-- The minima start at `1e9`: a list has its true minima found when some cell
has `x ≤ 1e9` and some cell has `y ≤ 1e9`. -/
def MinimaFound (cs : List Pt) : Prop :=
  (∃ c ∈ cs, c.x ≤ 1000000000) ∧ (∃ c ∈ cs, c.y ≤ 1000000000)

/-! ## Scenarios -/

/-- Four quarter turns, `rotated90(rotated90(rotated90(rotated90(p))))`. -/
def rotatedFour (p : Piece) : Piece := rotated90 (rotated90 (rotated90 (rotated90 p)))

/-- A single cell at `(0, 2147483647)`: its `y` lies above the `1e9` the minima
start from. -/
def highPiece : Piece := { cells := [⟨0, 2147483647⟩], color := 11, used := false }

/-- A single cell at `(2000000000, 0)`. -/
def farPiece : Piece := { cells := [⟨2000000000, 0⟩], color := 11, used := false }

/-- A single cell at `(2147483647, 0)`. -/
def edgePiece : Piece := { cells := [⟨2147483647, 0⟩], color := 11, used := false }


/-- A fixed outcome of the random draws: the first colour and the first
template for every slot. -/
def firstDraws : Draws := { color := fun _ => 0, shape := fun _ => 0 }

/-- The scenario board: row 0 occupied in columns 0 to 6, everything else
empty; every slot offers a monomino, slot 0 is selected and the cursor is at
`(7, 0)`. -/
def rowGapGame : Game :=
  { board := fun r c => if r = 0 ∧ c.val < 7 then 14 else 0
    score := 0
    best := 0
    offers := fun _ => randomPiece 11 0
    selected := 0
    cursorX := 7
    cursorY := 0
    firstDeal := false }

/-- The loop run on a list of inputs: for each iteration the key waiting at
`kbhit` (if any) and the numbers a refill in that iteration would draw. -/
def runLoop (g : Game) : List (Option Key × Draws) → Option Game
  | [] => some g
  | (key, d) :: rest =>
    match loopBody g key d with
    | some g' => runLoop g' rest
    | none => none

/-- An input that never selects a used slot: a digit key is only pressed for a
slot whose offer is unused. -/
def SelectsUnused (g : Game) (key : Option Key) : Prop :=
  (key = some Key.digit1 → (g.offers 0).used = false) ∧
  (key = some Key.digit2 → (g.offers 1).used = false) ∧
  (key = some Key.digit3 → (g.offers 2).used = false)

/-- The opening deal followed by a placement at `(0, 0)` and the key `1`. -/
def reselectInputs : List (Option Key × Draws) :=
  [(some Key.KEY_ENTER, firstDraws), (some Key.digit1, firstDraws)]

/-- The keys that place the first 3x3 block at `(0, 0)`, the second at `(3, 0)`
and move the cursor on to `(6, 0)`, where the 2x3 block fits. -/
def twoPlacedInputs : List (Option Key × Draws) :=
  [(some Key.KEY_ENTER, firstDraws),
   (some Key.KEY_RIGHT, firstDraws), (some Key.KEY_RIGHT, firstDraws),
   (some Key.KEY_RIGHT, firstDraws), (some Key.KEY_ENTER, firstDraws),
   (some Key.KEY_RIGHT, firstDraws), (some Key.KEY_RIGHT, firstDraws),
   (some Key.KEY_RIGHT, firstDraws)]

/-- The state after the opening deal and one placement at `(0, 0)`. -/
def onePlaced : Game :=
  (loopBody (openingDeal firstDraws) (some Key.KEY_ENTER) firstDraws).get (by decide)

/-- The state after `reselectInputs`. -/
def reselected : Game := (runLoop (openingDeal firstDraws) reselectInputs).get (by decide)

/-- The state after `twoPlacedInputs`: slots 0 and 1 are used, slot 2 is
selected and its 2x3 block fits at the cursor `(6, 0)`. -/
def twoPlaced : Game := (runLoop (openingDeal firstDraws) twoPlacedInputs).get (by decide)

/-! ## Vocabulary of the loop, the catalog and the gap boards -/

/-- The update at the head of every iteration of the loop of `Game::run`,
`best = std::max(best, score)`. -/
def tick (g : Game) : Game := { g with best := max g.best g.score }

/-- The cells of the 3x3 opening block in `(y, x)` order. -/
def square3 : List Pt :=
  [⟨0, 0⟩, ⟨1, 0⟩, ⟨2, 0⟩, ⟨0, 1⟩, ⟨1, 1⟩, ⟨2, 1⟩, ⟨0, 2⟩, ⟨1, 2⟩, ⟨2, 2⟩]

/-- The cells of the 2x3 opening block (2 wide, 3 high) in `(y, x)` order. -/
def rect2x3 : List Pt :=
  [⟨0, 0⟩, ⟨1, 0⟩, ⟨0, 1⟩, ⟨1, 1⟩, ⟨0, 2⟩, ⟨1, 2⟩]

/-- A well-formed cell list: non-empty, without duplicate cells, with minimum
`x` and minimum `y` both `0`, and sorted by `(y, then x)`. -/
def WellFormed (cs : List Pt) : Prop :=
  cs ≠ [] ∧ cs.Nodup ∧
  ((∃ c ∈ cs, c.x = 0) ∧ ∀ c ∈ cs, 0 ≤ c.x) ∧
  ((∃ c ∈ cs, c.y = 0) ∧ ∀ c ∈ cs, 0 ≤ c.y) ∧
  cs.Pairwise (fun a b => a.y < b.y ∨ (a.y = b.y ∧ a.x ≤ b.x))

instance : DecidablePred WellFormed := fun cs => by
  unfold WellFormed
  infer_instance

/-- Two cells are orthogonally adjacent: same column and rows one apart, or
same row and columns one apart. -/
def Adjacent (a b : Pt) : Prop :=
  (a.x = b.x ∧ (a.y = b.y + 1 ∨ b.y = a.y + 1)) ∨
  (a.y = b.y ∧ (a.x = b.x + 1 ∨ b.x = a.x + 1))

instance : DecidableRel Adjacent := fun a b => by
  unfold Adjacent
  infer_instance

/-- A cell list that holds two orthogonally adjacent cells. -/
def HasAdjacentPair (cs : List Pt) : Prop := ∃ a ∈ cs, ∃ b ∈ cs, Adjacent a b

instance : DecidablePred HasAdjacentPair := fun cs => by
  unfold HasAdjacentPair
  infer_instance

/-- A board with isolated single-cell gaps only: no two empty cells are
orthogonally adjacent. -/
def IsolatedGaps (b : Board) : Prop :=
  ∀ (r r' : Fin H) (c c' : Fin W), b r c = 0 → b r' c' = 0 →
    ¬ Adjacent ⟨(c.val : Int), (r.val : Int)⟩ ⟨(c'.val : Int), (r'.val : Int)⟩

instance : DecidablePred IsolatedGaps := fun b => by
  unfold IsolatedGaps
  infer_instance

/-- The cell lists of the catalog shapes with at least two cells: the templates
`1..11` of `randomPiece`, the two opening rectangles, and every rotation of
such a shape. -/
inductive LargeShape : List Pt → Prop
  | template (color : Int) (t : Nat) : 1 ≤ t → t ≤ 11 → LargeShape (randomPiece color t).cells
  | square (color : Int) : LargeShape (makeRect 3 3 color).cells
  | rect (color : Int) : LargeShape (makeRect 2 3 color).cells
  | rotated (p : Piece) : LargeShape p.cells → LargeShape (rotated90 p).cells

/-- A checkerboard of gaps; slot 0 offers a horizontal domino, slot 1 the 2x3
block turned once, slot 2 a monomino that is already used. -/
def checkerGame : Game :=
  { board := fun r c => if (r.val + c.val) % 2 = 0 then 0 else 14
    score := 0
    best := 0
    offers := fun i =>
      match i with
      | 0 => randomPiece 11 1
      | 1 => rotated90 (makeRect 2 3 10)
      | 2 => { randomPiece 13 0 with used := true }
    selected := 0
    cursorX := 0
    cursorY := 0
    firstDeal := false }

/-! ## Machine arithmetic

The definitions above compute with exact integers.  That is what the compiled
code computes as long as no `int` operation leaves the 32-bit range, which is
the case whenever `canPlace` holds of a cursor on the board and for every piece
the game deals or rotates.  Three functions of the source accept arbitrary `int`
arguments: `canPlace`, `normalize` and `rotated90`.  Namespace `Machine` repeats
them with each `int` addition, subtraction and negation reduced to 32 bits, as
two's complement hardware does (in C++ itself a signed overflow is undefined
behaviour). -/

/-- The value a 32-bit `int` holds after an operation whose exact result is
`v`. -/
def wrap32 (v : Int) : Int := (v + 2147483648) % 4294967296 - 2147483648

/-- The integer `v` is a value of the type `int`. -/
def Fits32 (v : Int) : Prop := -2147483648 ≤ v ∧ v ≤ 2147483647

instance : DecidablePred Fits32 := fun v => by
  unfold Fits32
  infer_instance

namespace Machine

/-- The loop of `Game::canPlace` with `int bx = x + c.x; int by = y + c.y`
computed in 32 bits. -/
def canPlaceLoop (b : Board) (x y : Int) : List Pt → Bool
  | [] => true
  | c :: cs =>
    let bx := wrap32 (x + c.x)
    let by_ := wrap32 (y + c.y)
    if h : inBounds bx by_ = true then
      if b.cell bx by_ h != 0 then false
      else canPlaceLoop b x y cs
    else false

/-- The test `Game::canPlace` in 32-bit arithmetic. -/
def canPlace (g : Game) (p : Piece) (x y : Int) : Bool :=
  Machine.canPlaceLoop g.board x y p.cells

/-- The procedure `Game::normalize` with `c.x -= minx; c.y -= miny` computed in
32 bits. -/
def normalize (p : Piece) : Piece :=
  let m := minXY p.cells
  { p with cells := sortCells (p.cells.map fun c => ⟨wrap32 (c.x - m.1), wrap32 (c.y - m.2)⟩) }

/-- The rotation `Game::rotated90` with `int ny = -c.x` computed in 32 bits,
followed by the 32-bit `normalize`. -/
def rotated90 (src : Piece) : Piece :=
  Machine.normalize { src with cells := src.cells.map fun c => ⟨c.y, wrap32 (-c.x)⟩ }

/-- Four quarter turns in 32-bit arithmetic. -/
def rotatedFour (p : Piece) : Piece :=
  Machine.rotated90 (Machine.rotated90 (Machine.rotated90 (Machine.rotated90 p)))

end Machine

/-- No `int` operation of `normalize` overflows on `p`: every coordinate of the
exact result fits 32 bits. -/
def NormalizesExactly (p : Piece) : Prop :=
  ∀ c ∈ (normalize p).cells, Fits32 c.x ∧ Fits32 c.y

instance : DecidablePred NormalizesExactly := fun p => by
  unfold NormalizesExactly
  infer_instance

/-- No `int` operation of `rotated90` overflows on `p`: every negated `x` and
every coordinate of the exact result fits 32 bits. -/
def TurnsExactly (p : Piece) : Prop :=
  (∀ c ∈ p.cells, Fits32 (-c.x)) ∧ ∀ c ∈ (rotated90 p).cells, Fits32 c.x ∧ Fits32 c.y

instance : DecidablePred TurnsExactly := fun p => by
  unfold TurnsExactly
  infer_instance

/-- No `int` operation overflows in four successive applications of
`rotated90` to `p`. -/
def FourTurnsExactly (p : Piece) : Prop :=
  TurnsExactly p ∧ TurnsExactly (rotated90 p) ∧ TurnsExactly (rotated90 (rotated90 p)) ∧
    TurnsExactly (rotated90 (rotated90 (rotated90 p)))

instance : DecidablePred FourTurnsExactly := fun p => by
  unfold FourTurnsExactly
  infer_instance

/-- A single cell at `(-2147483648, 0)`, the least `int`. -/
def minPiece : Piece := { cells := [⟨-2147483648, 0⟩], color := 11, used := false }

/-- Two cells `4 * 10^9` apart, `(-2000000000, 0)` and `(2000000000, 0)`. -/
def widePiece : Piece :=
  { cells := [⟨-2000000000, 0⟩, ⟨2000000000, 0⟩], color := 11, used := false }

/-- A single cell at `(-2000000000, 0)`. -/
def lowPiece : Piece := { cells := [⟨-2000000000, 0⟩], color := 11, used := false }

/-- An L-shaped tromino given away from the origin and out of order:
`(3, -2)`, `(2, -2)`, `(2, -1)`. -/
def skewPiece : Piece := { cells := [⟨3, -2⟩, ⟨2, -2⟩, ⟨2, -1⟩], color := 14, used := false }

/-- A cell list inside the 4x4 box at the origin, canonical and free of
duplicates: what the tray holds. -/
def Tidy (cs : List Pt) : Prop := WellFormed cs ∧ ∀ c ∈ cs, c.x ≤ 3 ∧ c.y ≤ 3

instance : DecidablePred Tidy := fun cs => by
  unfold Tidy
  infer_instance

/-! ## Theorems -/

theorem inBounds_iff (x y : Int) :
    inBounds x y = true ↔ 0 ≤ x ∧ x < 8 ∧ 0 ≤ y ∧ y < 8 := by
  simp [inBounds, and_assoc]

theorem canPlaceLoop_iff (b : Board) (x y : Int) (cs : List Pt) :
    canPlaceLoop b x y cs = true ↔
      ∀ c ∈ cs, ∃ h : inBounds (x + c.x) (y + c.y) = true,
        b.cell (x + c.x) (y + c.y) h = 0 := by
  induction cs with
  | nil => simp [canPlaceLoop]
  | cons c cs ih =>
    simp only [canPlaceLoop, List.mem_cons, forall_eq_or_imp]
    by_cases h : inBounds (x + c.x) (y + c.y) = true
    · by_cases hz : b.cell (x + c.x) (y + c.y) h = 0
      · simp [h, hz, ih]
      · simp [h, hz]
    · simp [h]

theorem cell_eq_of_coe (b : Board) (x y : Int) (h : inBounds x y = true)
    (r : Fin H) (c : Fin W) (hr : (r : Int) = y) (hc : (c : Int) = x) :
    b.cell x y h = b r c := by
  have hb := (inBounds_iff x y).1 h
  have e1 : rowIdx x y h = r := by
    apply Fin.ext; simp only [rowIdx]; omega
  have e2 : colIdx x y h = c := by
    apply Fin.ext; simp only [colIdx]; omega
  simp [Board.cell, e1, e2]

theorem coe_rowIdx (x y : Int) (h : inBounds x y = true) :
    ((rowIdx x y h : Fin H) : Int) = y := by
  have hb := (inBounds_iff x y).1 h
  simp only [rowIdx]; omega

theorem coe_colIdx (x y : Int) (h : inBounds x y = true) :
    ((colIdx x y h : Fin W) : Int) = x := by
  have hb := (inBounds_iff x y).1 h
  simp only [colIdx]; omega

theorem canPlace_true_iff (g : Game) (p : Piece) (x y : Int) :
    canPlace g p x y = true ↔
      ∀ c ∈ p.cells,
        0 ≤ x + c.x ∧ x + c.x < 8 ∧ 0 ≤ y + c.y ∧ y + c.y < 8 ∧
        ∀ (r : Fin H) (cl : Fin W), (r : Int) = y + c.y → (cl : Int) = x + c.x →
          g.board r cl = 0 := by
  rw [canPlace, canPlaceLoop_iff]
  constructor
  · intro hall c hc
    obtain ⟨h, hz⟩ := hall c hc
    have hb := (inBounds_iff _ _).1 h
    refine ⟨hb.1, hb.2.1, hb.2.2.1, hb.2.2.2, ?_⟩
    intro r cl hr hcl
    rw [← cell_eq_of_coe g.board _ _ h r cl hr hcl]; exact hz
  · intro hall c hc
    obtain ⟨h1, h2, h3, h4, hz⟩ := hall c hc
    have h : inBounds (x + c.x) (y + c.y) = true := (inBounds_iff _ _).2 ⟨h1, h2, h3, h4⟩
    exact ⟨h, hz _ _ (coe_rowIdx _ _ h) (coe_colIdx _ _ h)⟩

/-! ### Writing a piece -/

theorem rowIdx_eq_iff (x y : Int) (h : inBounds x y = true) (r : Fin H) :
    r = rowIdx x y h ↔ (r : Int) = y := by
  have hb := (inBounds_iff x y).1 h
  constructor
  · intro e; rw [e]; exact coe_rowIdx x y h
  · intro e; apply Fin.ext; simp only [rowIdx]; omega

theorem colIdx_eq_iff (x y : Int) (h : inBounds x y = true) (c : Fin W) :
    c = colIdx x y h ↔ (c : Int) = x := by
  have hb := (inBounds_iff x y).1 h
  constructor
  · intro e; rw [e]; exact coe_colIdx x y h
  · intro e; apply Fin.ext; simp only [colIdx]; omega

theorem placeLoop_spec (color x y : Int) (cs : List Pt) :
    ∀ (b : Board) (s : Int), (∀ c ∈ cs, inBounds (x + c.x) (y + c.y) = true) →
      ∃ b', placeLoop color x y cs b s = some (b', s + 10 * (cs.length : Int)) ∧
        ∀ (r : Fin H) (cl : Fin W),
          ((∃ c ∈ cs, (r : Int) = y + c.y ∧ (cl : Int) = x + c.x) → b' r cl = color) ∧
          ((∀ c ∈ cs, ¬ ((r : Int) = y + c.y ∧ (cl : Int) = x + c.x)) → b' r cl = b r cl) := by
  induction cs with
  | nil =>
    intro b s _
    exact ⟨b, by simp [placeLoop], fun r cl => ⟨by simp, fun _ => rfl⟩⟩
  | cons c cs ih =>
    intro b s hin
    have hc : inBounds (x + c.x) (y + c.y) = true := hin c (List.mem_cons_self _ _)
    obtain ⟨b', hb', hspec⟩ :=
      ih (b.set (rowIdx _ _ hc) (colIdx _ _ hc) color) (s + 10)
        (fun c' hc' => hin c' (List.mem_cons_of_mem _ hc'))
    refine ⟨b', ?_, ?_⟩
    · simp only [placeLoop, hc, dite_true, hb', List.length_cons, Nat.cast_add, Nat.cast_one]
      congr 2; ring
    · intro r cl
      have hset : (b.set (rowIdx _ _ hc) (colIdx _ _ hc) color) r cl =
          if (r : Int) = y + c.y ∧ (cl : Int) = x + c.x then color else b r cl := by
        simp only [Board.set, rowIdx_eq_iff, colIdx_eq_iff]
      constructor
      · rintro ⟨c', hc', hcov⟩
        by_cases hrest : ∃ c'' ∈ cs, (r : Int) = y + c''.y ∧ (cl : Int) = x + c''.x
        · exact (hspec r cl).1 hrest
        · have hno : ∀ c'' ∈ cs, ¬ ((r : Int) = y + c''.y ∧ (cl : Int) = x + c''.x) :=
            fun c'' h'' hcv => hrest ⟨c'', h'', hcv⟩
          rw [(hspec r cl).2 hno, hset]
          rcases List.mem_cons.1 hc' with e | e
          · subst e; rw [if_pos hcov]
          · exact absurd hcov (hno c' e)
      · intro hno
        rw [(hspec r cl).2 (fun c' hc' => hno c' (List.mem_cons_of_mem _ hc')), hset,
          if_neg (hno c (List.mem_cons_self _ _))]

theorem inBounds_of_canPlace (g : Game) (p : Piece) (x y : Int)
    (h : canPlace g p x y = true) :
    ∀ c ∈ p.cells, inBounds (x + c.x) (y + c.y) = true := by
  intro c hc
  obtain ⟨h1, h2, h3, h4, _⟩ := (canPlace_true_iff g p x y).1 h c hc
  exact (inBounds_iff _ _).2 ⟨h1, h2, h3, h4⟩

theorem placePiece_eq (g : Game) (p : Piece) (x y : Int)
    (h : canPlace g p x y = true) :
    ∃ b', placePiece g p x y =
        some { g with board := b', score := g.score + 10 * (p.cells.length : Int) } ∧
      ∀ (r : Fin H) (cl : Fin W),
        ((∃ c ∈ p.cells, (r : Int) = y + c.y ∧ (cl : Int) = x + c.x) → b' r cl = p.color) ∧
        ((∀ c ∈ p.cells, ¬ ((r : Int) = y + c.y ∧ (cl : Int) = x + c.x)) →
          b' r cl = g.board r cl) := by
  obtain ⟨b', hb', hspec⟩ :=
    placeLoop_spec p.color x y p.cells g.board g.score (inBounds_of_canPlace g p x y h)
  exact ⟨b', by simp [placePiece, hb'], hspec⟩

theorem rowFull_iff (b : Board) (r : Fin H) :
    rowFull b r = true ↔ ∀ c : Fin W, b r c ≠ 0 := by
  simp [rowFull, List.all_eq_true]

theorem colFull_iff (b : Board) (c : Fin W) :
    colFull b c = true ↔ ∀ r : Fin H, b r c ≠ 0 := by
  simp [colFull, List.all_eq_true]

theorem mem_fullRows (b : Board) (r : Fin H) :
    r ∈ fullRows b ↔ ∀ c : Fin W, b r c ≠ 0 := by
  simp [fullRows, rowFull_iff]

theorem mem_fullCols (b : Board) (c : Fin W) :
    c ∈ fullCols b ↔ ∀ r : Fin H, b r c ≠ 0 := by
  simp [fullCols, colFull_iff]

theorem foldl_set_row (r : Fin H) (l : List (Fin W)) :
    ∀ (b : Board) (r' : Fin H) (c' : Fin W),
      (l.foldl (fun acc c => acc.set r c 0) b) r' c' =
        if r' = r ∧ c' ∈ l then 0 else b r' c' := by
  induction l with
  | nil => intro b r' c'; simp
  | cons c l ih =>
    intro b r' c'
    simp only [List.foldl_cons, ih, Board.set, List.mem_cons]
    by_cases h1 : r' = r <;> by_cases h2 : c' = c <;> by_cases h3 : c' ∈ l <;> simp [h1, h2, h3]

theorem foldl_set_col (c : Fin W) (l : List (Fin H)) :
    ∀ (b : Board) (r' : Fin H) (c' : Fin W),
      (l.foldl (fun acc r => acc.set r c 0) b) r' c' =
        if c' = c ∧ r' ∈ l then 0 else b r' c' := by
  induction l with
  | nil => intro b r' c'; simp
  | cons r l ih =>
    intro b r' c'
    simp only [List.foldl_cons, ih, Board.set, List.mem_cons]
    by_cases h1 : c' = c <;> by_cases h2 : r' = r <;> by_cases h3 : r' ∈ l <;> simp [h1, h2, h3]

theorem clearRow_apply (b : Board) (r r' : Fin H) (c' : Fin W) :
    clearRow b r r' c' = if r' = r then 0 else b r' c' := by
  simp [clearRow, foldl_set_row]

theorem clearCol_apply (b : Board) (c : Fin W) (r' : Fin H) (c' : Fin W) :
    clearCol b c r' c' = if c' = c then 0 else b r' c' := by
  simp [clearCol, foldl_set_col]

theorem foldl_clearRow (l : List (Fin H)) :
    ∀ (b : Board) (r' : Fin H) (c' : Fin W),
      (l.foldl clearRow b) r' c' = if r' ∈ l then 0 else b r' c' := by
  induction l with
  | nil => intro b r' c'; simp
  | cons r l ih =>
    intro b r' c'
    simp only [List.foldl_cons, ih, clearRow_apply, List.mem_cons]
    by_cases h1 : r' = r <;> by_cases h2 : r' ∈ l <;> simp [h1, h2]

theorem foldl_clearCol (l : List (Fin W)) :
    ∀ (b : Board) (r' : Fin H) (c' : Fin W),
      (l.foldl clearCol b) r' c' = if c' ∈ l then 0 else b r' c' := by
  induction l with
  | nil => intro b r' c'; simp
  | cons c l ih =>
    intro b r' c'
    simp only [List.foldl_cons, ih, clearCol_apply, List.mem_cons]
    by_cases h1 : c' = c <;> by_cases h2 : c' ∈ l <;> simp [h1, h2]

theorem clearLines_board_apply (g : Game) (r : Fin H) (c : Fin W) :
    (clearLines g).1.board r c =
      if r ∈ fullRows g.board ∨ c ∈ fullCols g.board then 0 else g.board r c := by
  unfold clearLines
  by_cases hemp : ((fullRows g.board).isEmpty && (fullCols g.board).isEmpty) = true
  · simp only [hemp, if_true]
    simp only [Bool.and_eq_true, List.isEmpty_iff] at hemp
    simp [hemp.1, hemp.2]
  · simp only [hemp, Bool.false_eq_true, if_false, foldl_clearCol, foldl_clearRow]
    by_cases h1 : r ∈ fullRows g.board <;> by_cases h2 : c ∈ fullCols g.board <;> simp [h1, h2]

/-- C3: after `clearLines` the cell at row `r`, column `c` is `0` when row `r`
was full or column `c` was full on the board before the call (full: all 8 cells
non-zero, both judged on that same board), and otherwise keeps its value. -/
theorem clearLines_board (g : Game) (r : Fin H) (c : Fin W) :
    (clearLines g).1.board r c =
      if (∀ c' : Fin W, g.board r c' ≠ 0) ∨ (∀ r' : Fin H, g.board r' c ≠ 0) then 0
      else g.board r c := by
  rw [clearLines_board_apply]
  simp only [mem_fullRows, mem_fullCols]

/-! ### Searching for a move -/

theorem exists_nat_cast_iff (P : Int → Prop) :
    (∃ n : Nat, n < 8 ∧ P (n : Int)) ↔ ∃ x : Int, 0 ≤ x ∧ x < 8 ∧ P x := by
  constructor
  · rintro ⟨n, hn, hp⟩
    exact ⟨n, by omega, by omega, hp⟩
  · rintro ⟨x, h0, h8, hp⟩
    refine ⟨x.toNat, by omega, ?_⟩
    rwa [Int.toNat_of_nonneg h0]

theorem anyMovePossible_true_iff (g : Game) :
    anyMovePossible g = true ↔
      ∃ i : Fin 3, (g.offers i).used = false ∧
        ∃ x y : Int, 0 ≤ x ∧ x < 8 ∧ 0 ≤ y ∧ y < 8 ∧ canPlace g (g.offers i) x y = true := by
  simp only [anyMovePossible, List.any_eq_true, List.mem_finRange, true_and,
    Bool.and_eq_true, Bool.not_eq_true', List.mem_range]
  constructor
  · rintro ⟨i, hu, ny, hy, nx, hx, hp⟩
    have hy' : ny < 8 := hy
    have hx' : nx < 8 := hx
    exact ⟨i, hu, nx, ny, by omega, by omega, by omega, by omega, hp⟩
  · rintro ⟨i, hu, x, y, hx0, hx8, hy0, hy8, hp⟩
    have hy' : y.toNat < 8 := by omega
    have hx' : x.toNat < 8 := by omega
    refine ⟨i, hu, y.toNat, hy', x.toNat, hx', ?_⟩
    rwa [Int.toNat_of_nonneg hx0, Int.toNat_of_nonneg hy0]

/-- C5: `anyMovePossible` is true exactly when some slot `i` holds an unused
offer that `canPlace` accepts at some origin `(x, y)` with `0 ≤ x < 8` and
`0 ≤ y < 8`; so it is false exactly when `canPlace` rejects every unused offer
at each of the 64 origins, and a used offer never makes it true. -/
theorem anyMovePossible_iff (g : Game) :
    (anyMovePossible g = true ↔
      ∃ i : Fin 3, (g.offers i).used = false ∧
        ∃ x y : Int, 0 ≤ x ∧ x < 8 ∧ 0 ≤ y ∧ y < 8 ∧ canPlace g (g.offers i) x y = true) ∧
    (anyMovePossible g = false ↔
      ∀ i : Fin 3, (g.offers i).used = false →
        ∀ x y : Int, 0 ≤ x → x < 8 → 0 ≤ y → y < 8 → canPlace g (g.offers i) x y = false) := by
  have key := anyMovePossible_true_iff g
  refine ⟨key, ?_⟩
  rw [← Bool.not_eq_true, key]
  constructor
  · intro hno i hu x y hx0 hx8 hy0 hy8
    rw [← Bool.not_eq_true]
    exact fun hp => hno ⟨i, hu, x, y, hx0, hx8, hy0, hy8, hp⟩
  · rintro hall ⟨i, hu, x, y, hx0, hx8, hy0, hy8, hp⟩
    rw [hall i hu x y hx0 hx8 hy0 hy8] at hp
    exact Bool.false_ne_true hp

/-! ### Marking an offer used -/

theorem autoSelectLoop_fields (g : Game) (idx : Fin 3) (ks : List Nat) :
    (autoSelectLoop g idx ks).offers = g.offers ∧
    (autoSelectLoop g idx ks).board = g.board ∧
    (autoSelectLoop g idx ks).score = g.score ∧
    (autoSelectLoop g idx ks).best = g.best ∧
    (autoSelectLoop g idx ks).cursorX = g.cursorX ∧
    (autoSelectLoop g idx ks).cursorY = g.cursorY ∧
    (autoSelectLoop g idx ks).firstDeal = g.firstDeal := by
  induction ks with
  | nil => simp [autoSelectLoop]
  | cons k ks ih =>
    simp only [autoSelectLoop]
    split
    · simp
    · exact ih

theorem markUsedAndAutoSelect_offers (g : Game) (idx : Fin 3) :
    (markUsedAndAutoSelect g idx).offers =
      Function.update g.offers idx { g.offers idx with used := true } := by
  simp [markUsedAndAutoSelect, (autoSelectLoop_fields _ idx [0, 1, 2]).1]

theorem markUsedAndAutoSelect_selected (g : Game) (idx : Fin 3) :
    (markUsedAndAutoSelect g idx).selected =
      (if (g.offers (idx + 1)).used = false then idx + 1
       else if (g.offers (idx + 2)).used = false then idx + 2
       else g.selected) := by
  fin_cases idx <;>
    cases h0 : (g.offers 0).used <;> cases h1 : (g.offers 1).used <;>
    cases h2 : (g.offers 2).used <;>
    simp [markUsedAndAutoSelect, autoSelectLoop, Function.update, h0, h1, h2]

/-- The tray scenario: marking slot 1 selects slot 2 when it is unused, and slot
0 when slot 2 is used and slot 0 is not. -/
theorem markUsed_slot_one (g : Game) :
    ((g.offers 2).used = false → (markUsedAndAutoSelect g 1).selected = 2) ∧
    ((g.offers 2).used = true → (g.offers 0).used = false →
      (markUsedAndAutoSelect g 1).selected = 0) := by
  rw [markUsedAndAutoSelect_selected]
  constructor
  · intro h2
    rw [show ((1 : Fin 3) + 1) = 2 from rfl, if_pos h2]
  · intro h2 h0
    rw [show ((1 : Fin 3) + 1) = 2 from rfl, show ((1 : Fin 3) + 2) = 0 from rfl,
      if_neg (by simp [h2]), if_pos h0]

theorem markUsedAndAutoSelect_fields (g : Game) (idx : Fin 3) :
    ((markUsedAndAutoSelect g idx).offers idx).used = true ∧
    ((markUsedAndAutoSelect g idx).offers idx).cells = (g.offers idx).cells ∧
    ((markUsedAndAutoSelect g idx).offers idx).color = (g.offers idx).color ∧
    (∀ i : Fin 3, i ≠ idx → (markUsedAndAutoSelect g idx).offers i = g.offers i) ∧
    (markUsedAndAutoSelect g idx).selected =
      (if (g.offers (idx + 1)).used = false then idx + 1
       else if (g.offers (idx + 2)).used = false then idx + 2
       else g.selected) ∧
    (markUsedAndAutoSelect g idx).board = g.board ∧
    (markUsedAndAutoSelect g idx).score = g.score ∧
    (markUsedAndAutoSelect g idx).best = g.best ∧
    (markUsedAndAutoSelect g idx).cursorX = g.cursorX ∧
    (markUsedAndAutoSelect g idx).cursorY = g.cursorY ∧
    (markUsedAndAutoSelect g idx).firstDeal = g.firstDeal := by
  have hf := autoSelectLoop_fields
    { g with offers := Function.update g.offers idx { g.offers idx with used := true } }
    idx [0, 1, 2]
  refine ⟨?_, ?_, ?_, ?_, markUsedAndAutoSelect_selected g idx,
    hf.2.1, hf.2.2.1, hf.2.2.2.1, hf.2.2.2.2.1, hf.2.2.2.2.2.1, hf.2.2.2.2.2.2⟩
  · simp [markUsedAndAutoSelect_offers]
  · simp [markUsedAndAutoSelect_offers]
  · simp [markUsedAndAutoSelect_offers]
  · intro i hi
    simp [markUsedAndAutoSelect_offers, Function.update, hi]

/-- C8: `markUsedAndAutoSelect idx` sets the used flag of slot `idx`, keeps the
cells and colour of that slot and every other offer whole, keeps board, score,
best, cursor and the first-deal flag, and leaves `selected` at `(idx+1) % 3` if
that slot is unused, else at `(idx+2) % 3` if that slot is unused, else
unchanged. -/
theorem markUsedAndAutoSelect_spec (g : Game) (idx : Fin 3) :
    ((markUsedAndAutoSelect g idx).offers idx).used = true ∧
    ((markUsedAndAutoSelect g idx).offers idx).cells = (g.offers idx).cells ∧
    ((markUsedAndAutoSelect g idx).offers idx).color = (g.offers idx).color ∧
    (∀ i : Fin 3, i ≠ idx → (markUsedAndAutoSelect g idx).offers i = g.offers i) ∧
    (markUsedAndAutoSelect g idx).selected =
      (if (g.offers (idx + 1)).used = false then idx + 1
       else if (g.offers (idx + 2)).used = false then idx + 2
       else g.selected) ∧
    (markUsedAndAutoSelect g idx).board = g.board ∧
    (markUsedAndAutoSelect g idx).score = g.score ∧
    (markUsedAndAutoSelect g idx).best = g.best ∧
    (markUsedAndAutoSelect g idx).cursorX = g.cursorX ∧
    (markUsedAndAutoSelect g idx).cursorY = g.cursorY ∧
    (markUsedAndAutoSelect g idx).firstDeal = g.firstDeal :=
  markUsedAndAutoSelect_fields g idx

/-! ### The place command and the score -/

theorem fullRows_length (b : Board) :
    (fullRows b).length =
      (Finset.univ.filter fun r : Fin H => ∀ c : Fin W, b r c ≠ 0).card := by
  have hset : (Finset.univ.filter fun r : Fin H => ∀ c : Fin W, b r c ≠ 0)
      = (fullRows b).toFinset := by
    ext r; simp [mem_fullRows]
  rw [hset, List.toFinset_card_of_nodup]
  exact (List.nodup_finRange _).filter _

theorem fullCols_length (b : Board) :
    (fullCols b).length =
      (Finset.univ.filter fun c : Fin W => ∀ r : Fin H, b r c ≠ 0).card := by
  have hset : (Finset.univ.filter fun c : Fin W => ∀ r : Fin H, b r c ≠ 0)
      = (fullCols b).toFinset := by
    ext c; simp [mem_fullCols]
  rw [hset, List.toFinset_card_of_nodup]
  exact (List.nodup_finRange _).filter _

theorem clearLines_snd (g : Game) :
    (clearLines g).2 = ((fullRows g.board).length : Int) + ((fullCols g.board).length : Int) := by
  unfold clearLines
  by_cases hemp : ((fullRows g.board).isEmpty && (fullCols g.board).isEmpty) = true
  · simp only [hemp, if_true]
    simp only [Bool.and_eq_true, List.isEmpty_iff] at hemp
    simp [hemp.1, hemp.2]
  · simp only [hemp, Bool.false_eq_true, if_false]

theorem clearLines_score (g : Game) :
    (clearLines g).1.score = g.score + 120 * (clearLines g).2 := by
  unfold clearLines
  by_cases hemp : ((fullRows g.board).isEmpty && (fullCols g.board).isEmpty) = true
  · simp only [hemp, if_true]; simp
  · simp only [hemp, Bool.false_eq_true, if_false]

theorem clearLines_fields (g : Game) :
    (clearLines g).1.offers = g.offers ∧ (clearLines g).1.selected = g.selected ∧
    (clearLines g).1.best = g.best ∧ (clearLines g).1.cursorX = g.cursorX ∧
    (clearLines g).1.cursorY = g.cursorY ∧ (clearLines g).1.firstDeal = g.firstDeal := by
  unfold clearLines
  by_cases hemp : ((fullRows g.board).isEmpty && (fullCols g.board).isEmpty) = true
  · simp only [hemp, if_true]; simp
  · simp only [hemp, Bool.false_eq_true, if_false]; simp

theorem refillOffers_fields (g : Game) (d : Draws) :
    (refillOffers g d).board = g.board ∧ (refillOffers g d).score = g.score ∧
    (refillOffers g d).best = g.best ∧ (refillOffers g d).cursorX = g.cursorX ∧
    (refillOffers g d).cursorY = g.cursorY ∧ (refillOffers g d).selected = 0 := by
  unfold refillOffers
  by_cases hf : g.firstDeal = true
  · simp [hf]
  · simp [hf]

theorem placeCommand_eq (g : Game) (d : Draws) (g1 : Game)
    (hu : (g.offers g.selected).used = false)
    (hp : canPlace g (g.offers g.selected) g.cursorX g.cursorY = true)
    (h1 : placePiece g (g.offers g.selected) g.cursorX g.cursorY = some g1) :
    placeCommand g d =
      some (if allUsed (clearLines (markUsedAndAutoSelect g1 g1.selected)).1 = true
        then refillOffers (clearLines (markUsedAndAutoSelect g1 g1.selected)).1 d
        else (clearLines (markUsedAndAutoSelect g1 g1.selected)).1) := by
  simp only [placeCommand, hu, hp, h1, Bool.not_false, Bool.and_self, if_true]
  split <;> rfl

theorem cellLe_iff (a b : Pt) :
    cellLe a b ↔ a.y < b.y ∨ (a.y = b.y ∧ a.x ≤ b.x) := by
  unfold cellLe cellLess
  by_cases h : b.y = a.y
  · simp [h]
  · simp only [ne_eq, h, not_false_eq_true, if_true, decide_eq_false_iff_not, not_lt]
    omega

theorem cellLe_total : IsTotal Pt cellLe :=
  ⟨fun a b => by simp only [cellLe_iff]; omega⟩

theorem cellLe_trans : IsTrans Pt cellLe :=
  ⟨fun a b c => by simp only [cellLe_iff]; omega⟩

theorem cellLe_antisymm : IsAntisymm Pt cellLe :=
  ⟨fun a b h1 h2 => by
    rw [cellLe_iff] at h1 h2
    cases a; cases b
    simp only [Pt.mk.injEq] at *
    omega⟩

theorem sortCells_perm (l : List Pt) : (sortCells l).Perm l :=
  List.perm_insertionSort cellLe l

theorem sortCells_sorted (l : List Pt) : (sortCells l).Sorted cellLe := by
  haveI := cellLe_total
  haveI := cellLe_trans
  exact List.sorted_insertionSort cellLe l

theorem eq_of_perm_of_sorted_cells {a b : List Pt} (hp : a.Perm b)
    (ha : a.Sorted cellLe) (hb : b.Sorted cellLe) : a = b := by
  haveI := cellLe_antisymm
  exact List.eq_of_perm_of_sorted hp ha hb

theorem sortCells_of_sorted {l : List Pt} (h : l.Sorted cellLe) : sortCells l = l :=
  eq_of_perm_of_sorted_cells (sortCells_perm l) (sortCells_sorted l) h

/-! ### Geometry: the minima -/

theorem foldl_min_spec (f : Pt → Int) (cs : List Pt) :
    ∀ a : Int,
      cs.foldl (fun m c => min m (f c)) a ≤ a ∧
      (∀ c ∈ cs, cs.foldl (fun m c => min m (f c)) a ≤ f c) ∧
      (cs.foldl (fun m c => min m (f c)) a = a ∨
        ∃ c ∈ cs, cs.foldl (fun m c => min m (f c)) a = f c) := by
  induction cs with
  | nil => intro a; simp
  | cons c cs ih =>
    intro a
    obtain ⟨h1, h2, h3⟩ := ih (min a (f c))
    simp only [List.foldl_cons, List.mem_cons, forall_eq_or_imp, exists_eq_or_imp]
    refine ⟨le_trans h1 (min_le_left _ _), ⟨le_trans h1 (min_le_right _ _), h2⟩, ?_⟩
    rcases h3 with h3 | h3
    · rcases min_choice a (f c) with hm | hm
      · left; rw [h3, hm]
      · right; left; rw [h3, hm]
    · right; right; exact h3

theorem foldl_pair (cs : List Pt) :
    ∀ a b : Int,
      cs.foldl (fun (m : Int × Int) c => (min m.1 c.x, min m.2 c.y)) (a, b) =
        (cs.foldl (fun m c => min m c.x) a, cs.foldl (fun m c => min m c.y) b) := by
  induction cs with
  | nil => intro a b; rfl
  | cons c cs ih => intro a b; simp only [List.foldl_cons, ih]

theorem minXY_fst (cs : List Pt) :
    (minXY cs).1 = cs.foldl (fun m c => min m c.x) 1000000000 := by
  simp [minXY, foldl_pair]

theorem minXY_snd (cs : List Pt) :
    (minXY cs).2 = cs.foldl (fun m c => min m c.y) 1000000000 := by
  simp [minXY, foldl_pair]

theorem minXY_fst_spec (cs : List Pt) (h : ∃ c ∈ cs, c.x ≤ 1000000000) :
    (∃ c ∈ cs, c.x = (minXY cs).1) ∧ ∀ c ∈ cs, (minXY cs).1 ≤ c.x := by
  rw [minXY_fst]
  obtain ⟨h1, h2, h3⟩ := foldl_min_spec (fun c => c.x) cs 1000000000
  refine ⟨?_, h2⟩
  rcases h3 with h3 | ⟨c, hc, e⟩
  · obtain ⟨c, hc, hle⟩ := h
    exact ⟨c, hc, le_antisymm (by rw [h3]; exact hle) (h2 c hc)⟩
  · exact ⟨c, hc, e.symm⟩

theorem minXY_snd_spec (cs : List Pt) (h : ∃ c ∈ cs, c.y ≤ 1000000000) :
    (∃ c ∈ cs, c.y = (minXY cs).2) ∧ ∀ c ∈ cs, (minXY cs).2 ≤ c.y := by
  rw [minXY_snd]
  obtain ⟨h1, h2, h3⟩ := foldl_min_spec (fun c => c.y) cs 1000000000
  refine ⟨?_, h2⟩
  rcases h3 with h3 | ⟨c, hc, e⟩
  · obtain ⟨c, hc, hle⟩ := h
    exact ⟨c, hc, le_antisymm (by rw [h3]; exact hle) (h2 c hc)⟩
  · exact ⟨c, hc, e.symm⟩

/-! ### Geometry: canonical lists -/

theorem normalize_cells (p : Piece) : (normalize p).cells = normCells p.cells := rfl

theorem normalize_eq (p : Piece) : normalize p = { p with cells := normCells p.cells } := rfl

theorem rotated90_eq (p : Piece) :
    rotated90 p = { p with cells := normCells (p.cells.map turn) } := rfl

theorem normCells_perm (cs : List Pt) : (normCells cs).Perm (cs.map (shiftBy (minXY cs))) :=
  sortCells_perm _

theorem normCells_canonicalOf (cs : List Pt) (h : MinimaFound cs) :
    CanonicalOf (normCells cs) cs := by
  obtain ⟨⟨cx, hcx, ex⟩, hlx⟩ := minXY_fst_spec cs h.1
  obtain ⟨⟨cy, hcy, ey⟩, hly⟩ := minXY_snd_spec cs h.2
  have hmem : ∀ c, c ∈ normCells cs ↔ ∃ c0 ∈ cs, shiftBy (minXY cs) c0 = c := by
    intro c
    rw [(normCells_perm cs).mem_iff, List.mem_map]
  refine ⟨⟨sortCells_sorted _, ?_, ?_, ?_, ?_⟩, minXY cs, normCells_perm cs⟩
  · exact ⟨shiftBy (minXY cs) cx, (hmem _).2 ⟨cx, hcx, rfl⟩, by simp [shiftBy, ex]⟩
  · intro c hc
    obtain ⟨c0, hc0, e⟩ := (hmem c).1 hc
    subst e
    have := hlx c0 hc0
    simp only [shiftBy]; omega
  · exact ⟨shiftBy (minXY cs) cy, (hmem _).2 ⟨cy, hcy, rfl⟩, by simp [shiftBy, ey]⟩
  · intro c hc
    obtain ⟨c0, hc0, e⟩ := (hmem c).1 hc
    subst e
    have := hly c0 hc0
    simp only [shiftBy]; omega

theorem canonicalOf_unique {a b cs : List Pt} (ha : CanonicalOf a cs) (hb : CanonicalOf b cs) :
    a = b := by
  obtain ⟨⟨hsa, ⟨ax, hax, eax⟩, hax0, ⟨ay, hay, eay⟩, hay0⟩, v, hv⟩ := ha
  obtain ⟨⟨hsb, ⟨bx, hbx, ebx⟩, hbx0, ⟨by_, hby, eby⟩, hby0⟩, w, hw⟩ := hb
  have hma : ∀ c, c ∈ a ↔ ∃ c0 ∈ cs, shiftBy v c0 = c := by
    intro c; rw [hv.mem_iff, List.mem_map]
  have hmb : ∀ c, c ∈ b ↔ ∃ c0 ∈ cs, shiftBy w c0 = c := by
    intro c; rw [hw.mem_iff, List.mem_map]
  have low_a : ∀ c0 ∈ cs, v.1 ≤ c0.x ∧ v.2 ≤ c0.y := by
    intro c0 hc0
    have hm := (hma _).2 ⟨c0, hc0, rfl⟩
    have h1 := hax0 _ hm
    have h2 := hay0 _ hm
    simp only [shiftBy] at h1 h2
    constructor <;> omega
  have low_b : ∀ c0 ∈ cs, w.1 ≤ c0.x ∧ w.2 ≤ c0.y := by
    intro c0 hc0
    have hm := (hmb _).2 ⟨c0, hc0, rfl⟩
    have h1 := hbx0 _ hm
    have h2 := hby0 _ hm
    simp only [shiftBy] at h1 h2
    constructor <;> omega
  obtain ⟨ax0, hax0m, eax0⟩ := (hma _).1 hax
  obtain ⟨ay0, hay0m, eay0⟩ := (hma _).1 hay
  obtain ⟨bx0, hbx0m, ebx0⟩ := (hmb _).1 hbx
  obtain ⟨by0, hby0m, eby0⟩ := (hmb _).1 hby
  have e1 : ax0.x - v.1 = 0 := by rw [← eax0] at eax; exact eax
  have e2 : ay0.y - v.2 = 0 := by rw [← eay0] at eay; exact eay
  have e3 : bx0.x - w.1 = 0 := by rw [← ebx0] at ebx; exact ebx
  have e4 : by0.y - w.2 = 0 := by rw [← eby0] at eby; exact eby
  have hvw1 : v.1 = w.1 := by
    have := (low_a bx0 hbx0m).1
    have := (low_b ax0 hax0m).1
    omega
  have hvw2 : v.2 = w.2 := by
    have := (low_a by0 hby0m).2
    have := (low_b ay0 hay0m).2
    omega
  have hvw : v = w := Prod.ext hvw1 hvw2
  subst hvw
  exact eq_of_perm_of_sorted_cells (hv.trans hw.symm) hsa hsb

theorem shiftBy_turn (v m : Int × Int) (c : Pt) :
    shiftBy m (turn (shiftBy v c)) = shiftBy (v.2 + m.1, m.2 - v.1) (turn c) := by
  simp only [shiftBy, turn, Pt.mk.injEq]
  constructor <;> ring

theorem canonicalOf_turn {a cs : List Pt} (h : CanonicalOf a cs) :
    CanonicalOf (normCells (a.map turn)) (cs.map turn) := by
  obtain ⟨⟨_, ⟨ax, hax, _⟩, hax0, ⟨ay, hay, eay⟩, _⟩, v, hv⟩ := h
  have hfound : MinimaFound (a.map turn) := by
    constructor
    · exact ⟨turn ay, List.mem_map_of_mem _ hay, by simp [turn, eay]⟩
    · refine ⟨turn ax, List.mem_map_of_mem _ hax, ?_⟩
      have := hax0 ax hax
      simp only [turn]; omega
  obtain ⟨hcan, m, hm⟩ := normCells_canonicalOf (a.map turn) hfound
  refine ⟨hcan, (v.2 + m.1, m.2 - v.1), ?_⟩
  refine hm.trans ?_
  have hstep : ((a.map turn).map (shiftBy m)).Perm
      (((cs.map (shiftBy v)).map turn).map (shiftBy m)) :=
    ((hv.map turn).map (shiftBy m))
  refine hstep.trans ?_
  rw [List.map_map, List.map_map, List.map_map]
  refine List.Perm.of_eq (List.map_congr_left ?_)
  intro c _
  simp only [Function.comp_apply, shiftBy_turn]

theorem canonical_found {a : List Pt} (h : Canonical a) : MinimaFound a := by
  obtain ⟨_, ⟨ax, hax, eax⟩, _, ⟨ay, hay, eay⟩, _⟩ := h
  exact ⟨⟨ax, hax, by omega⟩, ⟨ay, hay, by omega⟩⟩

theorem shiftBy_zero (c : Pt) : shiftBy (0, 0) c = c := by
  simp [shiftBy]

theorem canonicalOf_self {a : List Pt} (h : Canonical a) : CanonicalOf a a := by
  refine ⟨h, (0, 0), List.Perm.of_eq ?_⟩
  rw [show shiftBy (0, 0) = id from funext shiftBy_zero, List.map_id]

theorem normCells_idem (cs : List Pt) (h : MinimaFound cs) :
    normCells (normCells cs) = normCells cs := by
  have hc := (normCells_canonicalOf cs h).1
  exact canonicalOf_unique (normCells_canonicalOf _ (canonical_found hc)) (canonicalOf_self hc)

theorem turn_four (c : Pt) : turn (turn (turn (turn c))) = c := by
  simp [turn]

theorem map_turn_four (cs : List Pt) :
    (((cs.map turn).map turn).map turn).map turn = cs := by
  induction cs with
  | nil => rfl
  | cons c cs ih => simp only [List.map_cons, turn_four, ih]

theorem normCells_turn_four (cs : List Pt)
    (h : MinimaFound cs) (ht : MinimaFound (cs.map turn)) :
    normCells ((normCells ((normCells ((normCells (cs.map turn)).map turn)).map turn)).map turn)
      = normCells cs := by
  have h1 := normCells_canonicalOf (cs.map turn) ht
  have h4 := canonicalOf_turn (canonicalOf_turn (canonicalOf_turn h1))
  rw [map_turn_four] at h4
  exact canonicalOf_unique h4 (normCells_canonicalOf cs h)

theorem sum_map_shift_x (v : Int × Int) (cs : List Pt) :
    ((cs.map (shiftBy v)).map Pt.x).sum = (cs.map Pt.x).sum - (cs.length : Int) * v.1 := by
  induction cs with
  | nil => simp
  | cons c cs ih =>
    simp only [List.map_cons, List.sum_cons, ih, List.length_cons, Nat.cast_add, Nat.cast_one,
      shiftBy]
    ring

theorem sum_map_shift_y (v : Int × Int) (cs : List Pt) :
    ((cs.map (shiftBy v)).map Pt.y).sum = (cs.map Pt.y).sum - (cs.length : Int) * v.2 := by
  induction cs with
  | nil => simp
  | cons c cs ih =>
    simp only [List.map_cons, List.sum_cons, ih, List.length_cons, Nat.cast_add, Nat.cast_one,
      shiftBy]
    ring

theorem fixed_found (cs : List Pt) (hne : cs ≠ []) (hfix : normCells cs = cs) :
    (∃ c ∈ cs, c.x = 0) ∧ (∃ c ∈ cs, c.y = 0) := by
  have hperm : cs.Perm (cs.map (shiftBy (minXY cs))) := by
    have := normCells_perm cs
    rwa [hfix] at this
  have hlen : (0 : Int) < (cs.length : Int) := by
    have := List.length_pos.2 hne
    omega
  have hx : (minXY cs).1 = 0 := by
    have hsum := (hperm.map Pt.x).sum_eq
    rw [sum_map_shift_x] at hsum
    have hz : (cs.length : Int) * (minXY cs).1 = 0 := by omega
    rcases mul_eq_zero.1 hz with h | h
    · omega
    · exact h
  have hy : (minXY cs).2 = 0 := by
    have hsum := (hperm.map Pt.y).sum_eq
    rw [sum_map_shift_y] at hsum
    have hz : (cs.length : Int) * (minXY cs).2 = 0 := by omega
    rcases mul_eq_zero.1 hz with h | h
    · omega
    · exact h
  constructor
  · obtain ⟨_, _, h3⟩ := foldl_min_spec (fun c => c.x) cs 1000000000
    rw [← minXY_fst, hx] at h3
    rcases h3 with h3 | ⟨c, hc, e⟩
    · omega
    · exact ⟨c, hc, e.symm⟩
  · obtain ⟨_, _, h3⟩ := foldl_min_spec (fun c => c.y) cs 1000000000
    rw [← minXY_snd, hy] at h3
    rcases h3 with h3 | ⟨c, hc, e⟩
    · omega
    · exact ⟨c, hc, e.symm⟩

/-- In exact arithmetic: for a piece with a cell of `x ≤ 10^9` and a cell of
`y ≤ 10^9`, `normalize` leaves minimum `x` and minimum `y` both `0`, the cells
sorted by `(y, then x)` and a permutation of the input translated by its
minima; and normalizing again changes nothing. -/
theorem normalize_exact_spec (p : Piece)
    (hx : ∃ c ∈ p.cells, c.x ≤ 1000000000) (hy : ∃ c ∈ p.cells, c.y ≤ 1000000000) :
    ((∃ c ∈ (normalize p).cells, c.x = 0) ∧ ∀ c ∈ (normalize p).cells, 0 ≤ c.x) ∧
    ((∃ c ∈ (normalize p).cells, c.y = 0) ∧ ∀ c ∈ (normalize p).cells, 0 ≤ c.y) ∧
    (normalize p).cells.Pairwise (fun a b => a.y < b.y ∨ (a.y = b.y ∧ a.x ≤ b.x)) ∧
    (∃ mx my : Int,
      ((∃ c ∈ p.cells, c.x = mx) ∧ ∀ c ∈ p.cells, mx ≤ c.x) ∧
      ((∃ c ∈ p.cells, c.y = my) ∧ ∀ c ∈ p.cells, my ≤ c.y) ∧
      (normalize p).cells.Perm (p.cells.map fun c => ⟨c.x - mx, c.y - my⟩)) ∧
    (normalize p).cells.length = p.cells.length ∧
    (normalize p).color = p.color ∧ (normalize p).used = p.used ∧
    normalize (normalize p) = normalize p := by
  have hfound : MinimaFound p.cells := ⟨hx, hy⟩
  obtain ⟨⟨hs, hx0, hxpos, hy0, hypos⟩, _⟩ := normCells_canonicalOf p.cells hfound
  refine ⟨⟨hx0, hxpos⟩, ⟨hy0, hypos⟩, ?_, ?_, ?_, rfl, rfl, ?_⟩
  · exact List.Pairwise.imp (fun {a b} h => (cellLe_iff a b).1 h) hs
  · exact ⟨(minXY p.cells).1, (minXY p.cells).2, minXY_fst_spec _ hx, minXY_snd_spec _ hy,
      normCells_perm p.cells⟩
  · rw [normalize_cells, (normCells_perm p.cells).length_eq, List.length_map]
  · rw [normalize_eq, normalize_eq]
    simp only [normCells_idem p.cells hfound]

/-! ### The tray along the loop -/

theorem refillOffers_used (g : Game) (d : Draws) (i : Fin 3) :
    ((refillOffers g d).offers i).used = false := by
  unfold refillOffers
  by_cases hf : g.firstDeal = true
  · simp only [hf, if_true]
    fin_cases i <;> rfl
  · simp [hf]

theorem resetGame_used (g : Game) (d : Draws) (i : Fin 3) :
    ((resetGame g d).offers i).used = false := refillOffers_used _ d i

theorem resetGame_selected (g : Game) (d : Draws) : (resetGame g d).selected = 0 :=
  (refillOffers_fields _ d).2.2.2.2.2

theorem rotateSelected_tray (g : Game) :
    (rotateSelected g).selected = g.selected ∧
    ∀ i, ((rotateSelected g).offers i).used = (g.offers i).used := by
  unfold rotateSelected
  by_cases hu : (g.offers g.selected).used = true
  · simp [hu]
  · simp only [hu, Bool.false_eq_true, if_false, true_and]
    intro i
    by_cases hi : i = g.selected
    · subst hi; simp [rotated90_eq]
    · simp [Function.update, hi]

theorem not_allUsed_of_unused (g : Game) (i : Fin 3) (h : (g.offers i).used = false) :
    allUsed g = false := by
  fin_cases i <;> simp_all [allUsed]

theorem allUsed_congr (g g' : Game) (h : ∀ i, (g'.offers i).used = (g.offers i).used) :
    allUsed g' = allUsed g := by
  simp [allUsed, h]

theorem markUsed_selected_unused (g : Game) (idx : Fin 3)
    (h : allUsed (markUsedAndAutoSelect g idx) = false) :
    ((markUsedAndAutoSelect g idx).offers (markUsedAndAutoSelect g idx).selected).used
      = false := by
  rw [markUsedAndAutoSelect_selected]
  simp only [allUsed, markUsedAndAutoSelect_offers] at h ⊢
  fin_cases idx <;>
    cases h0 : (g.offers 0).used <;> cases h1 : (g.offers 1).used <;>
    cases h2 : (g.offers 2).used <;>
    simp_all [Function.update]

theorem placeCommand_success (g : Game) (d : Draws)
    (hu : (g.offers g.selected).used = false)
    (hp : canPlace g (g.offers g.selected) g.cursorX g.cursorY = true) :
    ∃ g3 : Game,
      (∀ i, i ≠ g.selected → (g3.offers i).used = (g.offers i).used) ∧
      (g3.offers g.selected).used = true ∧
      (allUsed g3 = false → (g3.offers g3.selected).used = false) ∧
      placeCommand g d = some (if allUsed g3 = true then refillOffers g3 d else g3) := by
  obtain ⟨b', hb', _⟩ := placePiece_eq g (g.offers g.selected) g.cursorX g.cursorY hp
  refine ⟨_, ?_, ?_, ?_, placeCommand_eq g d _ hu hp hb'⟩
  · intro i hi
    rw [(clearLines_fields _).1]
    rw [(markUsedAndAutoSelect_fields _ _).2.2.2.1 i hi]
  · rw [(clearLines_fields _).1]
    exact (markUsedAndAutoSelect_fields _ _).1
  · intro hall
    rw [(clearLines_fields _).1, (clearLines_fields _).2.1]
    apply markUsed_selected_unused
    rw [← hall]
    exact (allUsed_congr _ _ (fun i => by rw [(clearLines_fields _).1])).symm

theorem placeCommand_cases (g : Game) (d : Draws) :
    placeCommand g d = some g ∨
    ∃ g3 : Game,
      (allUsed g3 = false → (g3.offers g3.selected).used = false) ∧
      placeCommand g d = some (if allUsed g3 = true then refillOffers g3 d else g3) := by
  by_cases hu : (g.offers g.selected).used = false
  · by_cases hp : canPlace g (g.offers g.selected) g.cursorX g.cursorY = true
    · right
      obtain ⟨g3, _, _, hsel, hc⟩ := placeCommand_success g d hu hp
      exact ⟨g3, hsel, hc⟩
    · left
      simp [placeCommand, hp]
  · left
    simp [placeCommand, hu]

/-- What one loop iteration does to the tray: it deals afresh (all flags clear,
slot 0 selected), or keeps every used flag and either keeps the selection or
sets it to the slot of the digit key, or it is a placement without refill,
after which the selected offer is unused. -/
theorem loopBody_tray (g g' : Game) (key : Option Key) (d : Draws)
    (h : loopBody g key d = some g') :
    ((∀ i, (g'.offers i).used = false) ∧ g'.selected = 0) ∨
    ((∀ i, (g'.offers i).used = (g.offers i).used) ∧
      (g'.selected = g.selected ∨ (key = some Key.digit1 ∧ g'.selected = 0) ∨
        (key = some Key.digit2 ∧ g'.selected = 1) ∨ (key = some Key.digit3 ∧ g'.selected = 2))) ∨
    (g'.offers g'.selected).used = false := by
  unfold loopBody at h
  by_cases hmove : anyMovePossible { g with best := max g.best g.score } = true
  · simp only [hmove, Bool.not_true, Bool.false_eq_true, if_false] at h
    cases key with
    | none =>
      simp only [Option.some.injEq] at h; subst h
      right; left; exact ⟨fun _ => rfl, Or.inl rfl⟩
    | some k =>
      cases k with
      | KEY_ENTER =>
        simp only [handleKey] at h
        rcases placeCommand_cases { g with best := max g.best g.score } d with hc | hc
        · rw [hc] at h
          simp only [Option.some.injEq] at h; subst h
          right; left; exact ⟨fun _ => rfl, Or.inl rfl⟩
        · obtain ⟨g3, hsel, hc⟩ := hc
          rw [hc] at h
          simp only [Option.some.injEq] at h
          by_cases hall : allUsed g3 = true
          · rw [if_pos hall] at h; subst h
            left; exact ⟨refillOffers_used _ d, (refillOffers_fields _ d).2.2.2.2.2⟩
          · rw [if_neg hall] at h; subst h
            right; right
            exact hsel (by simpa using hall)
      | letterR =>
        simp only [handleKey, Option.some.injEq] at h; subst h
        right; left
        exact ⟨(rotateSelected_tray _).2, Or.inl (rotateSelected_tray _).1⟩
      | _ =>
        simp only [handleKey, Option.some.injEq] at h
        subst h
        right; left
        refine ⟨fun _ => rfl, ?_⟩
        simp
  · simp only [hmove, Bool.not_false, if_true, Option.some.injEq] at h
    subst h
    left; exact ⟨resetGame_used _ d, resetGame_selected _ d⟩

theorem openingDeal_tray (d : Draws) :
    (∀ i, ((openingDeal d).offers i).used = false) ∧ (openingDeal d).selected = 0 :=
  ⟨refillOffers_used _ d, (refillOffers_fields _ d).2.2.2.2.2⟩

theorem reachable_runLoop (inputs : List (Option Key × Draws)) :
    ∀ (g g' : Game), Reachable g → runLoop g inputs = some g' → Reachable g' := by
  induction inputs with
  | nil =>
    intro g g' hr h
    simp only [runLoop, Option.some.injEq] at h
    subst h; exact hr
  | cons kd rest ih =>
    intro g g' hr h
    obtain ⟨key, d⟩ := kd
    simp only [runLoop] at h
    cases hstep : loopBody g key d with
    | none => rw [hstep] at h; exact absurd h (by simp)
    | some g1 =>
      rw [hstep] at h
      exact ih g1 g' (ReachableBy.step key d hr trivial hstep) h

theorem selected_unused_of_reachable (g : Game) (hr : ReachableBy SelectsUnused g) :
    (g.offers g.selected).used = false := by
  induction hr with
  | start d => rw [(openingDeal_tray d).2]; exact (openingDeal_tray d).1 0
  | step key d _ hallowed hstep ih =>
    rcases loopBody_tray _ _ key d hstep with ⟨hall, _⟩ | ⟨hflags, hsel⟩ | hdone
    · exact hall _
    · rcases hsel with e | ⟨ek, e⟩ | ⟨ek, e⟩ | ⟨ek, e⟩
      · rw [e, hflags]; exact ih
      · rw [e, hflags]; exact hallowed.1 ek
      · rw [e, hflags]; exact hallowed.2.1 ek
      · rw [e, hflags]; exact hallowed.2.2 ek
    · exact hdone

theorem not_allUsed_of_reachable (g : Game) (hr : Reachable g) : allUsed g = false := by
  induction hr with
  | start d => exact not_allUsed_of_unused _ 0 ((openingDeal_tray d).1 0)
  | step key d _ _ hstep ih =>
    rcases loopBody_tray _ _ key d hstep with ⟨hall, _⟩ | ⟨hflags, _⟩ | hdone
    · exact not_allUsed_of_unused _ 0 (hall 0)
    · rw [allUsed_congr _ _ hflags]; exact ih
    · exact not_allUsed_of_unused _ _ hdone

theorem allUsed_of_all (g : Game) (h : ∀ i, (g.offers i).used = true) : allUsed g = true := by
  simp [allUsed, h]

/-- C9, as the code has it: in every state reachable from the opening deal by
loop iterations (move, rotate, place, game-over reset, no key) in which a digit
key is pressed only for a slot whose offer is unused, the selected offer is
unused; in particular it is unused whenever some offer is unused.  A digit key
itself selects its slot whether the offer is used or not. -/
theorem selected_offer_unused (g : Game) (hr : ReachableBy SelectsUnused g) :
    (g.offers g.selected).used = false ∧
    ((∃ i, (g.offers i).used = false) → (g.offers g.selected).used = false) :=
  ⟨selected_unused_of_reachable g hr, fun _ => selected_unused_of_reachable g hr⟩

/-- After the opening deal and a placement at `(0, 0)` slot 1 is selected. -/
theorem selected_offer_unused_witness :
    ReachableBy SelectsUnused onePlaced ∧
    (onePlaced.offers onePlaced.selected).used = false ∧
    ((∃ i, (onePlaced.offers i).used = false) →
      (onePlaced.offers onePlaced.selected).used = false) :=
  (fun hr => ⟨hr, selected_offer_unused onePlaced hr⟩)
    (ReachableBy.step (some Key.KEY_ENTER) firstDraws (ReachableBy.start firstDraws)
      ⟨by decide, by decide, by decide⟩ (Option.some_get _).symm)

/-- C9 fails as stated: after the opening deal, a placement at `(0, 0)` and the
key `1`, the state is reachable, slot 1 is unused, and the selected slot 0 is
used. -/
theorem selected_offer_unused_counterexample :
    Reachable reselected ∧ (reselected.offers 1).used = false ∧
    reselected.selected = 0 ∧ (reselected.offers reselected.selected).used = true :=
  ⟨reachable_runLoop reselectInputs _ _ (ReachableBy.start firstDraws) (Option.some_get _).symm,
    by decide, by decide, by decide⟩

/-- C10: in every state reachable from the opening deal at least one of the
three offers is unused, so a command is only ever accepted with an unused offer
in the tray; and when a successful place command uses up the last unused offer,
`refillOffers` runs within that command, after which all three used flags are
false and `selected` is `0`. -/
theorem tray_never_exhausted (g : Game) (hr : Reachable g) :
    allUsed g = false ∧
    allUsed { g with best := max g.best g.score } = false ∧
    ∀ d : Draws, (g.offers g.selected).used = false →
      canPlace g (g.offers g.selected) g.cursorX g.cursorY = true →
      (∀ i, i ≠ g.selected → (g.offers i).used = true) →
      ∃ g3 : Game, allUsed g3 = true ∧ placeCommand g d = some (refillOffers g3 d) ∧
        (∀ i, ((refillOffers g3 d).offers i).used = false) ∧
        (refillOffers g3 d).selected = 0 := by
  refine ⟨not_allUsed_of_reachable g hr, not_allUsed_of_reachable g hr, ?_⟩
  intro d hu hp hrest
  obtain ⟨g3, hother, hsel, _, hc⟩ := placeCommand_success g d hu hp
  have hall : allUsed g3 = true := by
    apply allUsed_of_all
    intro i
    by_cases hi : i = g.selected
    · rw [hi]; exact hsel
    · rw [hother i hi]; exact hrest i hi
  refine ⟨g3, hall, ?_, refillOffers_used g3 d, (refillOffers_fields g3 d).2.2.2.2.2⟩
  rw [hc, if_pos hall]

/-- The state after two placements: slot 2 holds the last unused offer and fits
at the cursor, so placing it deals a fresh tray. -/
theorem tray_never_exhausted_witness :
    Reachable twoPlaced ∧
    ((twoPlaced.offers twoPlaced.selected).used = false ∧
      canPlace twoPlaced (twoPlaced.offers twoPlaced.selected)
        twoPlaced.cursorX twoPlaced.cursorY = true ∧
      ∀ i, i ≠ twoPlaced.selected → (twoPlaced.offers i).used = true) ∧
    allUsed twoPlaced = false ∧
    ∃ g3 : Game, allUsed g3 = true ∧
      placeCommand twoPlaced firstDraws = some (refillOffers g3 firstDraws) ∧
      (∀ i, ((refillOffers g3 firstDraws).offers i).used = false) ∧
      (refillOffers g3 firstDraws).selected = 0 :=
  (fun hr =>
    ⟨hr, ⟨by decide, by decide, by decide⟩, (tray_never_exhausted twoPlaced hr).1,
      (tray_never_exhausted twoPlaced hr).2.2 firstDraws (by decide) (by decide) (by decide)⟩)
    (reachable_runLoop twoPlacedInputs _ _ (ReachableBy.start firstDraws)
      (Option.some_get _).symm)

/-! ### Commands that fail, the best score, the cursor -/

theorem placeCommand_of_used (g : Game) (d : Draws)
    (h : (g.offers g.selected).used = true) : placeCommand g d = some g := by
  simp [placeCommand, h]

theorem placeCommand_of_blocked (g : Game) (d : Draws)
    (h : canPlace g (g.offers g.selected) g.cursorX g.cursorY = false) :
    placeCommand g d = some g := by
  simp [placeCommand, h]

/-- C11: when the selected offer is used, or `canPlace` rejects it at the
cursor, the place command returns the state it was given: board, score, best,
the three offers, the selected index and the cursor are as before. -/
theorem placeCommand_unchanged (g : Game) (d : Draws)
    (h : (g.offers g.selected).used = true ∨
      canPlace g (g.offers g.selected) g.cursorX g.cursorY = false) :
    placeCommand g d = some g ∧ handleKey g Key.KEY_ENTER d = some g := by
  have hp : placeCommand g d = some g := by
    rcases h with h | h
    · exact placeCommand_of_used g d h
    · exact placeCommand_of_blocked g d h
  exact ⟨hp, hp⟩

/-- Slot 0 was used up and then selected again with the key `1`: placing does
nothing. -/
theorem placeCommand_unchanged_witness :
    ((reselected.offers reselected.selected).used = true ∨
      canPlace reselected (reselected.offers reselected.selected)
        reselected.cursorX reselected.cursorY = false) ∧
    placeCommand reselected firstDraws = some reselected ∧
    handleKey reselected Key.KEY_ENTER firstDraws = some reselected :=
  ⟨Or.inl (by decide), placeCommand_unchanged reselected firstDraws (Or.inl (by decide))⟩

theorem rotateSelected_frame (g : Game) :
    (rotateSelected g).best = g.best ∧ (rotateSelected g).score = g.score ∧
    (rotateSelected g).board = g.board ∧
    (rotateSelected g).cursorX = g.cursorX ∧ (rotateSelected g).cursorY = g.cursorY := by
  unfold rotateSelected
  by_cases hu : (g.offers g.selected).used = true
  · simp [hu]
  · simp [hu]

theorem placeCommand_frame (g g' : Game) (d : Draws) (h : placeCommand g d = some g') :
    g'.best = g.best ∧ g'.cursorX = g.cursorX ∧ g'.cursorY = g.cursorY := by
  by_cases hu : (g.offers g.selected).used = false
  · by_cases hp : canPlace g (g.offers g.selected) g.cursorX g.cursorY = true
    · obtain ⟨b', hb', _⟩ := placePiece_eq g (g.offers g.selected) g.cursorX g.cursorY hp
      rw [placeCommand_eq g d _ hu hp hb'] at h
      simp only [Option.some.injEq] at h
      have hm := markUsedAndAutoSelect_fields
        { g with board := b', score := g.score + 10 * ((g.offers g.selected).cells.length : Int) }
        g.selected
      have hc := clearLines_fields (markUsedAndAutoSelect
        { g with board := b', score := g.score + 10 * ((g.offers g.selected).cells.length : Int) }
        g.selected)
      have hfin : ∀ s : Game, (if allUsed s = true then refillOffers s d else s).best = s.best ∧
          (if allUsed s = true then refillOffers s d else s).cursorX = s.cursorX ∧
          (if allUsed s = true then refillOffers s d else s).cursorY = s.cursorY := by
        intro s
        by_cases ha : allUsed s = true
        · rw [if_pos ha]
          exact ⟨(refillOffers_fields s d).2.2.1, (refillOffers_fields s d).2.2.2.1,
            (refillOffers_fields s d).2.2.2.2.1⟩
        · rw [if_neg ha]
          exact ⟨rfl, rfl, rfl⟩
      subst h
      refine ⟨?_, ?_, ?_⟩
      · rw [(hfin _).1, hc.2.2.1, hm.2.2.2.2.2.2.2.1]
      · rw [(hfin _).2.1, hc.2.2.2.1, hm.2.2.2.2.2.2.2.2.1]
      · rw [(hfin _).2.2, hc.2.2.2.2.1, hm.2.2.2.2.2.2.2.2.2.1]
    · rw [placeCommand_of_blocked g d (by simpa using hp)] at h
      simp only [Option.some.injEq] at h; subst h; exact ⟨rfl, rfl, rfl⟩
  · rw [placeCommand_of_used g d (by simpa using hu)] at h
    simp only [Option.some.injEq] at h; subst h; exact ⟨rfl, rfl, rfl⟩

theorem handleKey_best (g g' : Game) (key : Key) (d : Draws)
    (h : handleKey g key d = some g') : g'.best = g.best := by
  cases key with
  | KEY_ENTER => exact (placeCommand_frame g g' d h).1
  | letterR =>
    simp only [handleKey, Option.some.injEq] at h; subst h
    exact (rotateSelected_frame g).1
  | _ =>
    simp only [handleKey, Option.some.injEq] at h
    subst h; rfl

theorem resetGame_frame (g : Game) (d : Draws) :
    (resetGame g d).best = g.best ∧ (resetGame g d).score = 0 ∧
    (resetGame g d).cursorX = 0 ∧ (resetGame g d).cursorY = 0 ∧
    (resetGame g d).board = fun _ _ => 0 := by
  have hf := refillOffers_fields
    { g with board := fun _ _ => 0, score := 0, selected := 0, cursorX := 0, cursorY := 0,
             firstDeal := true } d
  exact ⟨hf.2.2.1, hf.2.1, hf.2.2.2.1, hf.2.2.2.2.1, hf.1⟩

theorem loopBody_eq (g : Game) (key : Option Key) (d : Draws) :
    loopBody g key d =
      if anyMovePossible (tick g) = true then
        (match key with
          | none => some (tick g)
          | some Key.KEY_ESCAPE => some (tick g)
          | some k => handleKey (tick g) k d)
      else some (resetGame (gameOverScreen (tick g)) d) := by
  unfold loopBody tick
  by_cases hm : anyMovePossible { g with best := max g.best g.score } = true
  · simp only [hm, Bool.not_true, Bool.false_eq_true, if_false, if_true]
  · simp only [Bool.not_eq_true] at hm
    simp [hm]

theorem loopBody_best (g g' : Game) (key : Option Key) (d : Draws)
    (h : loopBody g key d = some g') : g'.best = max g.best g.score := by
  rw [loopBody_eq] at h
  by_cases hm : anyMovePossible (tick g) = true
  · simp only [hm, if_true] at h
    cases key with
    | none => simp only [Option.some.injEq] at h; subst h; rfl
    | some k =>
      cases k with
      | KEY_ESCAPE => simp only [Option.some.injEq] at h; subst h; rfl
      | _ => exact handleKey_best _ _ _ d h
  · simp only [hm, Bool.false_eq_true, if_false, Option.some.injEq] at h
    subst h
    rw [(resetGame_frame _ d).1]
    simp [gameOverScreen, tick]

theorem runLoop_best (inputs : List (Option Key × Draws)) :
    ∀ g g' : Game, runLoop g inputs = some g' → g.best ≤ g'.best := by
  induction inputs with
  | nil =>
    intro g g' h
    simp only [runLoop, Option.some.injEq] at h
    subst h; exact le_refl _
  | cons kd rest ih =>
    intro g g' h
    obtain ⟨key, d⟩ := kd
    simp only [runLoop] at h
    cases hstep : loopBody g key d with
    | none => rw [hstep] at h; exact absurd h (by simp)
    | some g1 =>
      rw [hstep] at h
      have h1 := loopBody_best g g1 key d hstep
      have h2 := ih g1 g' h
      have : g.best ≤ g1.best := by rw [h1]; exact le_max_left _ _
      exact le_trans this h2

/-- C12: over any sequence of loop iterations `best` never decreases; right
after the update at the head of an iteration `best ≥ score`; an iteration leaves
`best` at `max(best, score)` of the state it started from; and the game-over
branch (game-over screen, then `resetGame`) keeps that value of `best`, which
is at least the score of the game that ended, while the score is reset to `0`. -/
theorem best_never_decreases (g g' : Game) (inputs : List (Option Key × Draws))
    (h : runLoop g inputs = some g') :
    g.best ≤ g'.best ∧
    (tick g').score ≤ (tick g').best ∧ g'.best ≤ (tick g').best ∧
    (∀ key d g'', loopBody g' key d = some g'' →
      g'.best ≤ g''.best ∧ g''.best = max g'.best g'.score) ∧
    (∀ d, (resetGame (gameOverScreen (tick g')) d).best = (tick g').best ∧
      g'.score ≤ (resetGame (gameOverScreen (tick g')) d).best ∧
      (resetGame (gameOverScreen (tick g')) d).score = 0) ∧
    (∀ (s : Game) d, (resetGame s d).best = s.best) := by
  refine ⟨runLoop_best inputs g g' h, le_max_right _ _, le_max_left _ _, ?_, ?_, ?_⟩
  · intro key d g'' hstep
    have hb := loopBody_best g' g'' key d hstep
    exact ⟨by rw [hb]; exact le_max_left _ _, hb⟩
  · intro d
    have hb : (resetGame (gameOverScreen (tick g')) d).best = (tick g').best := by
      rw [(resetGame_frame _ d).1]
      simp [gameOverScreen, tick]
    refine ⟨hb, ?_, (resetGame_frame _ d).2.1⟩
    rw [hb]; exact le_max_right _ _
  · intro s d
    exact (resetGame_frame s d).1

/-- The trace of two placements: `best` goes from `0` to `90`, the score at the
head of the last placement. -/
theorem best_never_decreases_witness :
    runLoop (openingDeal firstDraws) twoPlacedInputs = some twoPlaced ∧
    (openingDeal firstDraws).best ≤ twoPlaced.best ∧
    (tick twoPlaced).score ≤ (tick twoPlaced).best :=
  ⟨(Option.some_get _).symm,
    (best_never_decreases (openingDeal firstDraws) twoPlaced twoPlacedInputs
      (Option.some_get _).symm).1,
    (best_never_decreases (openingDeal firstDraws) twoPlaced twoPlacedInputs
      (Option.some_get _).symm).2.1⟩

/-! ### Reset and the opening deal -/

theorem makeRect_cells (w h : Nat) (c : Int) : (makeRect w h c).cells = (makeRect w h 0).cells :=
  rfl

theorem makeRect_3_3_cells (c : Int) : (makeRect 3 3 c).cells = square3 := by
  rw [makeRect_cells]; decide

theorem makeRect_2_3_cells (c : Int) : (makeRect 2 3 c).cells = rect2x3 := by
  rw [makeRect_cells]; decide

theorem makeRect_color (w h : Nat) (c : Int) : (makeRect w h c).color = c := rfl

theorem resetGame_offers (g : Game) (d : Draws) :
    (resetGame g d).offers 0 = makeRect 3 3 (COLORS (d.color 0)) ∧
    (resetGame g d).offers 1 = makeRect 3 3 (COLORS (d.color 1)) ∧
    (resetGame g d).offers 2 = makeRect 2 3 (COLORS (d.color 2)) ∧
    (resetGame g d).firstDeal = false := by
  simp [resetGame, refillOffers]

theorem openingDeal_eq_reset (d : Draws) : openingDeal d = resetGame newGame d := rfl

/-- C13: from every state `resetGame` gives a board of 64 zeros, score `0`,
cursor `(0, 0)`, selected slot `0`, three unused offers, and the opening deal:
slots 0 and 1 hold the nine cells of the 3x3 square and slot 2 the six cells
of the 2-wide, 3-high rectangle, each in `(y, x)` order.  The starting state is
arbitrary, so this holds whatever the first-deal flag was. -/
theorem resetGame_spec (g : Game) (d : Draws) :
    (∀ (r : Fin H) (c : Fin W), (resetGame g d).board r c = 0) ∧
    (resetGame g d).score = 0 ∧
    (resetGame g d).cursorX = 0 ∧ (resetGame g d).cursorY = 0 ∧
    (resetGame g d).selected = 0 ∧
    (∀ i, ((resetGame g d).offers i).used = false) ∧
    ((resetGame g d).offers 0).cells =
      [⟨0, 0⟩, ⟨1, 0⟩, ⟨2, 0⟩, ⟨0, 1⟩, ⟨1, 1⟩, ⟨2, 1⟩, ⟨0, 2⟩, ⟨1, 2⟩, ⟨2, 2⟩] ∧
    ((resetGame g d).offers 1).cells =
      [⟨0, 0⟩, ⟨1, 0⟩, ⟨2, 0⟩, ⟨0, 1⟩, ⟨1, 1⟩, ⟨2, 1⟩, ⟨0, 2⟩, ⟨1, 2⟩, ⟨2, 2⟩] ∧
    ((resetGame g d).offers 2).cells =
      [⟨0, 0⟩, ⟨1, 0⟩, ⟨0, 1⟩, ⟨1, 1⟩, ⟨0, 2⟩, ⟨1, 2⟩] ∧
    (∀ c : Pt, c ∈ ((resetGame g d).offers 0).cells ↔ (0 ≤ c.x ∧ c.x < 3 ∧ 0 ≤ c.y ∧ c.y < 3)) ∧
    (∀ c : Pt, c ∈ ((resetGame g d).offers 2).cells ↔ (0 ≤ c.x ∧ c.x < 2 ∧ 0 ≤ c.y ∧ c.y < 3)) ∧
    (resetGame g d).best = g.best ∧
    (∀ d', (resetGame (resetGame g d) d').offers 0 = makeRect 3 3 (COLORS (d'.color 0))) := by
  have ho := resetGame_offers g d
  have hf := resetGame_frame g d
  refine ⟨?_, hf.2.1, hf.2.2.1, hf.2.2.2.1, resetGame_selected g d, resetGame_used g d,
    ?_, ?_, ?_, ?_, ?_, hf.1, ?_⟩
  · intro r c; rw [hf.2.2.2.2]
  · rw [ho.1, makeRect_3_3_cells]; rfl
  · rw [ho.2.1, makeRect_3_3_cells]; rfl
  · rw [ho.2.2.1, makeRect_2_3_cells]; rfl
  · intro c
    rw [ho.1, makeRect_3_3_cells]
    obtain ⟨x, y⟩ := c
    simp only [square3, List.mem_cons, Pt.mk.injEq, List.mem_singleton, List.not_mem_nil,
      or_false]
    omega
  · intro c
    rw [ho.2.2.1, makeRect_2_3_cells]
    obtain ⟨x, y⟩ := c
    simp only [rect2x3, List.mem_cons, Pt.mk.injEq, List.mem_singleton, List.not_mem_nil,
      or_false]
    omega
  · intro d'
    exact (resetGame_offers _ d').1

/-! ### The cursor -/

theorem handleKey_cursor (g g' : Game) (key : Key) (d : Draws)
    (h : handleKey g key d = some g')
    (hb : 0 ≤ g.cursorX ∧ g.cursorX < 8 ∧ 0 ≤ g.cursorY ∧ g.cursorY < 8) :
    0 ≤ g'.cursorX ∧ g'.cursorX < 8 ∧ 0 ≤ g'.cursorY ∧ g'.cursorY < 8 := by
  cases key with
  | KEY_ENTER =>
    obtain ⟨_, hx, hy⟩ := placeCommand_frame g g' d h
    rw [hx, hy]; exact hb
  | letterR =>
    simp only [handleKey, Option.some.injEq] at h; subst h
    rw [(rotateSelected_frame g).2.2.2.1, (rotateSelected_frame g).2.2.2.2]; exact hb
  | KEY_UP =>
    simp only [handleKey, Option.some.injEq] at h; subst h
    simp only [max_def]; split <;> omega
  | KEY_DOWN =>
    simp only [handleKey, Option.some.injEq] at h; subst h
    simp only [min_def, Nat.cast_ofNat]; split <;> omega
  | KEY_LEFT =>
    simp only [handleKey, Option.some.injEq] at h; subst h
    simp only [max_def]; split <;> omega
  | KEY_RIGHT =>
    simp only [handleKey, Option.some.injEq] at h; subst h
    simp only [min_def, Nat.cast_ofNat]; split <;> omega
  | _ =>
    simp only [handleKey, Option.some.injEq] at h
    subst h; exact hb

theorem loopBody_cursor (g g' : Game) (key : Option Key) (d : Draws)
    (h : loopBody g key d = some g')
    (hb : 0 ≤ g.cursorX ∧ g.cursorX < 8 ∧ 0 ≤ g.cursorY ∧ g.cursorY < 8) :
    0 ≤ g'.cursorX ∧ g'.cursorX < 8 ∧ 0 ≤ g'.cursorY ∧ g'.cursorY < 8 := by
  rw [loopBody_eq] at h
  by_cases hm : anyMovePossible (tick g) = true
  · simp only [hm, if_true] at h
    cases key with
    | none => simp only [Option.some.injEq] at h; subst h; exact hb
    | some k =>
      cases k with
      | KEY_ESCAPE => simp only [Option.some.injEq] at h; subst h; exact hb
      | _ => exact handleKey_cursor _ _ _ d h hb
  · simp only [hm, Bool.false_eq_true, if_false, Option.some.injEq] at h
    subst h
    rw [(resetGame_frame _ d).2.2.1, (resetGame_frame _ d).2.2.2.1]
    omega

theorem cursor_bounds_of_reachable (g : Game) (hr : Reachable g) :
    0 ≤ g.cursorX ∧ g.cursorX < 8 ∧ 0 ≤ g.cursorY ∧ g.cursorY < 8 := by
  induction hr with
  | start d =>
    rw [openingDeal_eq_reset, (resetGame_frame _ d).2.2.1, (resetGame_frame _ d).2.2.2.1]
    omega
  | step key d _ _ hstep ih => exact loopBody_cursor _ _ key d hstep ih

theorem handleKey_moves (s : Game) (d : Draws)
    (hb : 0 ≤ s.cursorX ∧ s.cursorX < 8 ∧ 0 ≤ s.cursorY ∧ s.cursorY < 8) :
    handleKey s Key.KEY_UP d =
      some { s with cursorY := if 0 < s.cursorY then s.cursorY - 1 else s.cursorY } ∧
    handleKey s Key.KEY_DOWN d =
      some { s with cursorY := if s.cursorY < 7 then s.cursorY + 1 else s.cursorY } ∧
    handleKey s Key.KEY_LEFT d =
      some { s with cursorX := if 0 < s.cursorX then s.cursorX - 1 else s.cursorX } ∧
    handleKey s Key.KEY_RIGHT d =
      some { s with cursorX := if s.cursorX < 7 then s.cursorX + 1 else s.cursorX } := by
  have e1 : max 0 (s.cursorY - 1) = if 0 < s.cursorY then s.cursorY - 1 else s.cursorY := by
    simp only [max_def]; split <;> split <;> omega
  have e2 : min (((H : Nat) : Int) - 1) (s.cursorY + 1) =
      if s.cursorY < 7 then s.cursorY + 1 else s.cursorY := by
    simp only [min_def, Nat.cast_ofNat]; split <;> split <;> omega
  have e3 : max 0 (s.cursorX - 1) = if 0 < s.cursorX then s.cursorX - 1 else s.cursorX := by
    simp only [max_def]; split <;> split <;> omega
  have e4 : min (((W : Nat) : Int) - 1) (s.cursorX + 1) =
      if s.cursorX < 7 then s.cursorX + 1 else s.cursorX := by
    simp only [min_def, Nat.cast_ofNat]; split <;> split <;> omega
  refine ⟨?_, ?_, ?_, ?_⟩
  · simp only [handleKey, e1]
  · simp only [handleKey, e2]
  · simp only [handleKey, e3]
  · simp only [handleKey, e4]

/-- C16: in every reachable state the cursor satisfies `0 ≤ cursorX < 8` and
`0 ≤ cursorY < 8`; in the state the loop hands to the key dispatch, each arrow
key moves exactly one coordinate by exactly `1` in its direction when that
stays on the board and leaves the cursor where it is at the edge, and the
result differs from the state before in that one coordinate only. -/
theorem cursor_in_bounds (g : Game) (hr : Reachable g) (d : Draws) :
    (0 ≤ g.cursorX ∧ g.cursorX < 8 ∧ 0 ≤ g.cursorY ∧ g.cursorY < 8) ∧
    (tick g).cursorX = g.cursorX ∧ (tick g).cursorY = g.cursorY ∧
    handleKey (tick g) Key.KEY_UP d =
      some { tick g with cursorY := if 0 < g.cursorY then g.cursorY - 1 else g.cursorY } ∧
    handleKey (tick g) Key.KEY_DOWN d =
      some { tick g with cursorY := if g.cursorY < 7 then g.cursorY + 1 else g.cursorY } ∧
    handleKey (tick g) Key.KEY_LEFT d =
      some { tick g with cursorX := if 0 < g.cursorX then g.cursorX - 1 else g.cursorX } ∧
    handleKey (tick g) Key.KEY_RIGHT d =
      some { tick g with cursorX := if g.cursorX < 7 then g.cursorX + 1 else g.cursorX } :=
  ⟨cursor_bounds_of_reachable g hr, rfl, rfl,
    handleKey_moves (tick g) d (cursor_bounds_of_reachable g hr)⟩

/-- The state after two placements, with the cursor at `(6, 0)`. -/
theorem cursor_in_bounds_witness :
    Reachable twoPlaced ∧
    (0 ≤ twoPlaced.cursorX ∧ twoPlaced.cursorX < 8 ∧
      0 ≤ twoPlaced.cursorY ∧ twoPlaced.cursorY < 8) ∧
    handleKey (tick twoPlaced) Key.KEY_UP firstDraws =
      some { tick twoPlaced with
        cursorY := if 0 < twoPlaced.cursorY then twoPlaced.cursorY - 1 else twoPlaced.cursorY } :=
  (fun hr => ⟨hr, (cursor_in_bounds twoPlaced hr firstDraws).1,
      (cursor_in_bounds twoPlaced hr firstDraws).2.2.2.1⟩)
    (reachable_runLoop twoPlacedInputs _ _ (ReachableBy.start firstDraws)
      (Option.some_get _).symm)

/-! ### The place command never leaves the array -/

theorem placeCommand_isSome (g : Game) (d : Draws) : ∃ g', placeCommand g d = some g' := by
  rcases placeCommand_cases g d with h | ⟨g3, _, h⟩
  · exact ⟨_, h⟩
  · exact ⟨_, h⟩

theorem handleKey_isSome (g : Game) (key : Key) (d : Draws) :
    ∃ g', handleKey g key d = some g' := by
  cases key with
  | KEY_ENTER => exact placeCommand_isSome g d
  | _ => exact ⟨_, rfl⟩

theorem loopBody_isSome (g : Game) (key : Option Key) (d : Draws) :
    ∃ g', loopBody g key d = some g' := by
  rw [loopBody_eq]
  by_cases hm : anyMovePossible (tick g) = true
  · simp only [hm, if_true]
    cases key with
    | none => exact ⟨_, rfl⟩
    | some k =>
      cases k with
      | KEY_ESCAPE => exact ⟨_, rfl⟩
      | _ => exact handleKey_isSome _ _ d
  · simp only [hm, Bool.false_eq_true, if_false]
    exact ⟨_, rfl⟩

/-- C17: the place command calls `placePiece` only under the test
`!used && canPlace` on the same board.  When the test fails nothing is written
(the state is returned as it is); when it holds, every write of `placePiece`
has `0 ≤ x+dx < 8` and `0 ≤ y+dy < 8` and goes to a cell that was empty, and
`placePiece` completes.  So the command, the key dispatch and the loop body
always return a state: the write outside the array is never reached. -/
theorem place_writes_in_bounds (g : Game) (d : Draws) :
    (((g.offers g.selected).used = true ∨
        canPlace g (g.offers g.selected) g.cursorX g.cursorY = false) →
      placeCommand g d = some g) ∧
    (((g.offers g.selected).used = false ∧
        canPlace g (g.offers g.selected) g.cursorX g.cursorY = true) →
      (∃ g1, placePiece g (g.offers g.selected) g.cursorX g.cursorY = some g1) ∧
      ∀ c ∈ (g.offers g.selected).cells,
        0 ≤ g.cursorX + c.x ∧ g.cursorX + c.x < 8 ∧
        0 ≤ g.cursorY + c.y ∧ g.cursorY + c.y < 8 ∧
        ∀ (r : Fin H) (cl : Fin W), (r : Int) = g.cursorY + c.y →
          (cl : Int) = g.cursorX + c.x → g.board r cl = 0) ∧
    (∃ g', placeCommand g d = some g') ∧
    (∀ key, ∃ g', handleKey g key d = some g') ∧
    (∀ key, ∃ g', loopBody g key d = some g') := by
  refine ⟨?_, ?_, placeCommand_isSome g d, fun key => handleKey_isSome g key d,
    fun key => loopBody_isSome g key d⟩
  · rintro (h | h)
    · exact placeCommand_of_used g d h
    · exact placeCommand_of_blocked g d h
  · rintro ⟨_, hp⟩
    obtain ⟨b', hb', _⟩ := placePiece_eq g (g.offers g.selected) g.cursorX g.cursorY hp
    exact ⟨⟨_, hb'⟩, (canPlace_true_iff g _ _ _).1 hp⟩

/-! ### A fresh game always has a move -/

theorem canPlace_square_origin (g : Game) (p : Piece)
    (hb : ∀ (r : Fin H) (c : Fin W), g.board r c = 0)
    (hc : ∀ c ∈ p.cells, 0 ≤ c.x ∧ c.x < 8 ∧ 0 ≤ c.y ∧ c.y < 8) :
    canPlace g p 0 0 = true := by
  rw [canPlace_true_iff]
  intro c hcm
  have := hc c hcm
  refine ⟨by omega, by omega, by omega, by omega, fun r cl _ _ => hb r cl⟩

theorem anyMovePossible_resetGame (g : Game) (d : Draws) :
    anyMovePossible (resetGame g d) = true := by
  rw [anyMovePossible_true_iff]
  refine ⟨0, resetGame_used g d 0, 0, 0, by omega, by omega, by omega, by omega, ?_⟩
  apply canPlace_square_origin
  · intro r c; rw [(resetGame_frame g d).2.2.2.2]
  · intro c hc
    rw [(resetGame_offers g d).1, makeRect_3_3_cells] at hc
    obtain ⟨x, y⟩ := c
    simp only [square3, List.mem_cons, Pt.mk.injEq, List.mem_singleton, List.not_mem_nil,
      or_false] at hc
    simp only
    omega

theorem anyMovePossible_tick (g : Game) : anyMovePossible (tick g) = anyMovePossible g := rfl

/-- C20: from every state the state produced by `resetGame` has a move (the
unused 3x3 block of slot 0 fits at origin `(0, 0)` on the empty board); so when
an iteration of the loop takes the game-over branch, the next iteration does
not: game over is never declared on a freshly reset game. -/
theorem reset_has_move (g : Game) (d : Draws) :
    anyMovePossible (resetGame g d) = true ∧
    ((resetGame g d).offers 0).used = false ∧
    canPlace (resetGame g d) ((resetGame g d).offers 0) 0 0 = true ∧
    (∀ key g', anyMovePossible (tick g) = false → loopBody g key d = some g' →
      g' = resetGame (gameOverScreen (tick g)) d ∧ anyMovePossible (tick g') = true ∧
      ∀ d', loopBody g' none d' = some (tick g')) := by
  refine ⟨anyMovePossible_resetGame g d, resetGame_used g d 0, ?_, ?_⟩
  · apply canPlace_square_origin
    · intro r c; rw [(resetGame_frame g d).2.2.2.2]
    · intro c hc
      rw [(resetGame_offers g d).1, makeRect_3_3_cells] at hc
      obtain ⟨x, y⟩ := c
      simp only [square3, List.mem_cons, Pt.mk.injEq, List.mem_singleton, List.not_mem_nil,
        or_false] at hc
      simp only
      omega
  · intro key g' hover hstep
    rw [loopBody_eq, if_neg (by simp [hover])] at hstep
    simp only [Option.some.injEq] at hstep
    subst hstep
    have hmove : anyMovePossible (tick (resetGame (gameOverScreen (tick g)) d)) = true := by
      rw [anyMovePossible_tick]; exact anyMovePossible_resetGame _ d
    refine ⟨rfl, hmove, fun d' => ?_⟩
    rw [loopBody_eq, if_pos hmove]

/-! ### After clearing no line is full -/

theorem clearLines_row_not_full (g : Game) (r : Fin H) :
    ¬ ∀ c : Fin W, (clearLines g).1.board r c ≠ 0 := by
  intro hfull
  by_cases hr : r ∈ fullRows g.board
  · exact hfull 0 (by rw [clearLines_board_apply, if_pos (Or.inl hr)])
  · have hex : ∃ c : Fin W, g.board r c = 0 := by
      by_contra hno
      exact hr ((mem_fullRows _ _).2 (fun c hc => hno ⟨c, hc⟩))
    obtain ⟨c, hc⟩ := hex
    apply hfull c
    rw [clearLines_board_apply]
    split
    · rfl
    · exact hc

theorem clearLines_col_not_full (g : Game) (c : Fin W) :
    ¬ ∀ r : Fin H, (clearLines g).1.board r c ≠ 0 := by
  intro hfull
  by_cases hcl : c ∈ fullCols g.board
  · exact hfull 0 (by rw [clearLines_board_apply, if_pos (Or.inr hcl)])
  · have hex : ∃ r : Fin H, g.board r c = 0 := by
      by_contra hno
      exact hcl ((mem_fullCols _ _).2 (fun r hr => hno ⟨r, hr⟩))
    obtain ⟨r, hr⟩ := hex
    apply hfull r
    rw [clearLines_board_apply]
    split
    · rfl
    · exact hr

theorem clearLines_of_no_full (g : Game)
    (hrow : ∀ r : Fin H, ¬ ∀ c : Fin W, g.board r c ≠ 0)
    (hcol : ∀ c : Fin W, ¬ ∀ r : Fin H, g.board r c ≠ 0) :
    clearLines g = (g, 0) := by
  have h1 : fullRows g.board = [] :=
    List.eq_nil_iff_forall_not_mem.2 (fun r hr => hrow r ((mem_fullRows _ _).1 hr))
  have h2 : fullCols g.board = [] :=
    List.eq_nil_iff_forall_not_mem.2 (fun c hc => hcol c ((mem_fullCols _ _).1 hc))
  simp [clearLines, h1, h2]

theorem placeCommand_board (g g' : Game) (d : Draws) (h : placeCommand g d = some g') :
    g'.board = g.board ∨ ∃ s : Game, g'.board = (clearLines s).1.board := by
  rcases placeCommand_cases g d with hc | ⟨g3, _, hc⟩
  · rw [hc] at h
    simp only [Option.some.injEq] at h; subst h
    exact Or.inl rfl
  · by_cases hu : (g.offers g.selected).used = false
    · by_cases hp : canPlace g (g.offers g.selected) g.cursorX g.cursorY = true
      · obtain ⟨b', hb', _⟩ := placePiece_eq g (g.offers g.selected) g.cursorX g.cursorY hp
        rw [placeCommand_eq g d _ hu hp hb'] at h
        simp only [Option.some.injEq] at h
        right
        refine ⟨markUsedAndAutoSelect
          { g with board := b',
                   score := g.score + 10 * ((g.offers g.selected).cells.length : Int) }
          g.selected, ?_⟩
        rw [← h]
        split
        · exact (refillOffers_fields _ d).1
        · rfl
      · rw [placeCommand_of_blocked g d (by simpa using hp)] at h
        simp only [Option.some.injEq] at h; subst h
        exact Or.inl rfl
    · rw [placeCommand_of_used g d (by simpa using hu)] at h
      simp only [Option.some.injEq] at h; subst h
      exact Or.inl rfl

theorem loopBody_board (g g' : Game) (key : Option Key) (d : Draws)
    (h : loopBody g key d = some g') :
    g'.board = g.board ∨ (g'.board = fun _ _ => 0) ∨
      ∃ s : Game, g'.board = (clearLines s).1.board := by
  rw [loopBody_eq] at h
  by_cases hm : anyMovePossible (tick g) = true
  · simp only [hm, if_true] at h
    cases key with
    | none => simp only [Option.some.injEq] at h; subst h; exact Or.inl rfl
    | some k =>
      cases k with
      | KEY_ESCAPE => simp only [Option.some.injEq] at h; subst h; exact Or.inl rfl
      | KEY_ENTER =>
        rcases placeCommand_board _ _ d h with e | e
        · exact Or.inl e
        · exact Or.inr (Or.inr e)
      | letterR =>
        simp only [handleKey, Option.some.injEq] at h; subst h
        exact Or.inl (rotateSelected_frame _).2.2.1
      | _ =>
        simp only [handleKey, Option.some.injEq] at h
        subst h; exact Or.inl rfl
  · simp only [hm, Bool.false_eq_true, if_false, Option.some.injEq] at h
    subst h
    exact Or.inr (Or.inl (resetGame_frame _ d).2.2.2.2)

theorem no_full_line_of_reachable (g : Game) (hr : Reachable g) :
    (∀ r : Fin H, ¬ ∀ c : Fin W, g.board r c ≠ 0) ∧
    (∀ c : Fin W, ¬ ∀ r : Fin H, g.board r c ≠ 0) := by
  have hzero : ∀ b : Board, (b = fun _ _ => 0) →
      (∀ r : Fin H, ¬ ∀ c : Fin W, b r c ≠ 0) ∧ (∀ c : Fin W, ¬ ∀ r : Fin H, b r c ≠ 0) := by
    intro b hb
    subst hb
    exact ⟨fun r h => h 0 rfl, fun c h => h 0 rfl⟩
  induction hr with
  | start d => exact hzero _ (by rw [openingDeal_eq_reset]; exact (resetGame_frame _ d).2.2.2.2)
  | step key d _ _ hstep ih =>
    rcases loopBody_board _ _ key d hstep with e | e | ⟨s, e⟩
    · rw [e]; exact ih
    · exact hzero _ e
    · rw [e]
      exact ⟨clearLines_row_not_full s, clearLines_col_not_full s⟩

/-- C18: after `clearLines` no row and no column of the board is full; a second
call right after the first returns `0` and gives back the state it received, so
board and score are unchanged; and in every reachable state (between commands)
the board has no full row and no full column. -/
theorem clearLines_idempotent (g : Game) :
    (∀ r : Fin H, ¬ ∀ c : Fin W, (clearLines g).1.board r c ≠ 0) ∧
    (∀ c : Fin W, ¬ ∀ r : Fin H, (clearLines g).1.board r c ≠ 0) ∧
    clearLines (clearLines g).1 = ((clearLines g).1, 0) ∧
    (∀ s : Game, Reachable s →
      (∀ r : Fin H, ¬ ∀ c : Fin W, s.board r c ≠ 0) ∧
      (∀ c : Fin W, ¬ ∀ r : Fin H, s.board r c ≠ 0)) :=
  ⟨clearLines_row_not_full g, clearLines_col_not_full g,
    clearLines_of_no_full _ (clearLines_row_not_full g) (clearLines_col_not_full g),
    no_full_line_of_reachable⟩

/-! ### The offers stay well formed -/

theorem wellFormed_iff (cs : List Pt) : WellFormed cs ↔ cs.Nodup ∧ Canonical cs := by
  have hpw : cs.Pairwise (fun a b => a.y < b.y ∨ (a.y = b.y ∧ a.x ≤ b.x)) ↔ cs.Sorted cellLe := by
    unfold List.Sorted
    constructor
    · exact List.Pairwise.imp (fun {a b} h => (cellLe_iff a b).2 h)
    · exact List.Pairwise.imp (fun {a b} h => (cellLe_iff a b).1 h)
  unfold WellFormed Canonical
  rw [hpw]
  constructor
  · rintro ⟨_, hn, ⟨hx, hx0⟩, ⟨hy, hy0⟩, hs⟩
    exact ⟨hn, hs, hx, hx0, hy, hy0⟩
  · rintro ⟨hn, hs, hx, hx0, hy, hy0⟩
    refine ⟨?_, hn, ⟨hx, hx0⟩, ⟨hy, hy0⟩, hs⟩
    obtain ⟨c, hc, _⟩ := hx
    exact List.ne_nil_of_mem hc

theorem turn_injective : Function.Injective turn := by
  intro a b h
  cases a; cases b
  simp only [turn, Pt.mk.injEq] at h ⊢
  omega

theorem shiftBy_injective (v : Int × Int) : Function.Injective (shiftBy v) := by
  intro a b h
  cases a; cases b
  simp only [shiftBy, Pt.mk.injEq] at h ⊢
  omega

theorem wellFormed_turn {cs : List Pt} (h : WellFormed cs) :
    WellFormed (normCells (cs.map turn)) := by
  rw [wellFormed_iff] at h ⊢
  obtain ⟨hn, hc⟩ := h
  refine ⟨?_, (canonicalOf_turn (canonicalOf_self hc)).1⟩
  rw [(normCells_perm _).nodup_iff]
  exact (hn.map turn_injective).map (shiftBy_injective _)

theorem randomPiece_cells (color : Int) (t : Nat) :
    (randomPiece color t).cells = (randomPiece 0 t).cells := by
  unfold randomPiece
  split <;> rfl

theorem randomPiece_wellFormed (color : Int) (t : Fin 12) :
    WellFormed (randomPiece color t.val).cells := by
  rw [randomPiece_cells]
  fin_cases t <;> decide

theorem makeRect_wellFormed (color : Int) :
    WellFormed (makeRect 3 3 color).cells ∧ WellFormed (makeRect 2 3 color).cells := by
  rw [makeRect_3_3_cells, makeRect_2_3_cells]
  exact ⟨by decide, by decide⟩

theorem refillOffers_wellFormed (s : Game) (d : Draws) (i : Fin 3) :
    WellFormed ((refillOffers s d).offers i).cells := by
  unfold refillOffers
  by_cases hf : s.firstDeal = true
  · simp only [hf, if_true]
    fin_cases i
    · exact (makeRect_wellFormed _).1
    · exact (makeRect_wellFormed _).1
    · exact (makeRect_wellFormed _).2
  · simp only [hf, Bool.false_eq_true, if_false]
    exact randomPiece_wellFormed _ _

theorem rotateSelected_wellFormed (g : Game) (h : ∀ i, WellFormed (g.offers i).cells)
    (i : Fin 3) : WellFormed ((rotateSelected g).offers i).cells := by
  unfold rotateSelected
  by_cases hu : (g.offers g.selected).used = true
  · simp only [hu, if_true]; exact h i
  · simp only [hu, Bool.false_eq_true, if_false]
    by_cases hi : i = g.selected
    · subst hi
      simp only [Function.update_same, rotated90_eq]
      exact wellFormed_turn (h _)
    · simp only [Function.update, hi, dite_false]; exact h i

theorem placeCommand_wellFormed (g g' : Game) (d : Draws) (hstep : placeCommand g d = some g')
    (h : ∀ i, WellFormed (g.offers i).cells) (i : Fin 3) :
    WellFormed (g'.offers i).cells := by
  by_cases hu : (g.offers g.selected).used = false
  · by_cases hp : canPlace g (g.offers g.selected) g.cursorX g.cursorY = true
    · obtain ⟨b', hb', _⟩ := placePiece_eq g (g.offers g.selected) g.cursorX g.cursorY hp
      rw [placeCommand_eq g d _ hu hp hb'] at hstep
      simp only [Option.some.injEq] at hstep
      rw [← hstep]
      split
      · exact refillOffers_wellFormed _ d i
      · rw [(clearLines_fields _).1, markUsedAndAutoSelect_offers]
        by_cases hi : i = g.selected
        · subst hi
          simp only [Function.update_same]
          exact h _
        · simp only [Function.update, hi, dite_false]; exact h i
    · rw [placeCommand_of_blocked g d (by simpa using hp)] at hstep
      simp only [Option.some.injEq] at hstep; subst hstep; exact h i
  · rw [placeCommand_of_used g d (by simpa using hu)] at hstep
    simp only [Option.some.injEq] at hstep; subst hstep; exact h i

theorem loopBody_wellFormed (g g' : Game) (key : Option Key) (d : Draws)
    (hstep : loopBody g key d = some g') (h : ∀ i, WellFormed (g.offers i).cells)
    (i : Fin 3) : WellFormed (g'.offers i).cells := by
  rw [loopBody_eq] at hstep
  by_cases hm : anyMovePossible (tick g) = true
  · simp only [hm, if_true] at hstep
    cases key with
    | none => simp only [Option.some.injEq] at hstep; subst hstep; exact h i
    | some k =>
      cases k with
      | KEY_ESCAPE => simp only [Option.some.injEq] at hstep; subst hstep; exact h i
      | KEY_ENTER => exact placeCommand_wellFormed (tick g) g' d hstep h i
      | letterR =>
        simp only [handleKey, Option.some.injEq] at hstep; subst hstep
        exact rotateSelected_wellFormed (tick g) h i
      | _ =>
        simp only [handleKey, Option.some.injEq] at hstep
        subst hstep; exact h i
  · simp only [hm, Bool.false_eq_true, if_false, Option.some.injEq] at hstep
    subst hstep
    exact refillOffers_wellFormed _ d i

theorem wellFormed_of_reachable (g : Game) (hr : Reachable g) (i : Fin 3) :
    WellFormed (g.offers i).cells := by
  induction hr generalizing i with
  | start d => exact refillOffers_wellFormed _ d i
  | step key d _ _ hstep ih => exact loopBody_wellFormed _ _ key d hstep ih i

/-- C19: in every state reachable from the opening deal each of the three
offers is non-empty, has no duplicate cells, has minimum `x` and minimum `y`
equal to `0`, and is sorted by `(y, then x)`.  The invariant (`WellFormed`) is
established by `refillOffers` from any state, through `makeRect` and through
`randomPiece` for every template index `0..11`, and it is preserved by
`rotateSelected`, by the place command and by `resetGame`. -/
theorem offers_well_formed (g : Game) (hr : Reachable g) (i : Fin 3) :
    ((g.offers i).cells ≠ [] ∧ (g.offers i).cells.Nodup ∧
      ((∃ c ∈ (g.offers i).cells, c.x = 0) ∧ ∀ c ∈ (g.offers i).cells, 0 ≤ c.x) ∧
      ((∃ c ∈ (g.offers i).cells, c.y = 0) ∧ ∀ c ∈ (g.offers i).cells, 0 ≤ c.y) ∧
      (g.offers i).cells.Pairwise (fun a b => a.y < b.y ∨ (a.y = b.y ∧ a.x ≤ b.x))) ∧
    (∀ (s : Game) (d : Draws) (j : Fin 3), WellFormed ((refillOffers s d).offers j).cells) ∧
    (∀ (color : Int) (t : Nat), t ≤ 11 → WellFormed (randomPiece color t).cells) ∧
    (∀ color : Int, WellFormed (makeRect 3 3 color).cells ∧
      WellFormed (makeRect 2 3 color).cells) ∧
    (∀ j, WellFormed ((rotateSelected g).offers j).cells) ∧
    (∀ (d : Draws) (g' : Game), placeCommand g d = some g' →
      ∀ j, WellFormed (g'.offers j).cells) ∧
    (∀ (d : Draws) (j : Fin 3), WellFormed ((resetGame g d).offers j).cells) := by
  have hall : ∀ j, WellFormed (g.offers j).cells := wellFormed_of_reachable g hr
  refine ⟨hall i, refillOffers_wellFormed, ?_, makeRect_wellFormed,
    rotateSelected_wellFormed g hall, ?_, ?_⟩
  · intro color t ht
    exact randomPiece_wellFormed color ⟨t, by omega⟩
  · intro d g' hstep
    exact placeCommand_wellFormed g g' d hstep hall
  · intro d j
    exact refillOffers_wellFormed _ d j

/-- The state after two placements: the 2x3 block in slot 2. -/
theorem offers_well_formed_witness :
    Reachable twoPlaced ∧
    (twoPlaced.offers 2).cells ≠ [] ∧ (twoPlaced.offers 2).cells.Nodup ∧
    ((∃ c ∈ (twoPlaced.offers 2).cells, c.x = 0) ∧ ∀ c ∈ (twoPlaced.offers 2).cells, 0 ≤ c.x) :=
  (fun hr => ⟨hr, (offers_well_formed twoPlaced hr 2).1.1, (offers_well_formed twoPlaced hr 2).1.2.1,
      (offers_well_formed twoPlaced hr 2).1.2.2.1⟩)
    (reachable_runLoop twoPlacedInputs _ _ (ReachableBy.start firstDraws)
      (Option.some_get _).symm)

/-! ### The first placement of a game -/

theorem COLORS_ne_zero (i : Fin 5) : COLORS i ≠ 0 := by
  fin_cases i <;> decide

theorem mem_square3 (c : Pt) : c ∈ square3 ↔ (0 ≤ c.x ∧ c.x < 3 ∧ 0 ≤ c.y ∧ c.y < 3) := by
  obtain ⟨x, y⟩ := c
  simp only [square3, List.mem_cons, Pt.mk.injEq, List.mem_singleton, List.not_mem_nil,
    or_false]
  omega

theorem covered_square3_iff (r : Fin H) (cl : Fin W) :
    (∃ c ∈ square3, (r : Int) = 0 + c.y ∧ (cl : Int) = 0 + c.x) ↔ (r.val < 3 ∧ cl.val < 3) := by
  constructor
  · rintro ⟨c, hc, h1, h2⟩
    have := (mem_square3 c).1 hc
    omega
  · rintro ⟨h1, h2⟩
    refine ⟨⟨(cl.val : Int), (r.val : Int)⟩, (mem_square3 _).2 ?_, ?_, ?_⟩
    · simp only; omega
    · simp
    · simp

theorem placePiece_some (g : Game) (p : Piece) (x y : Int)
    (h : canPlace g p x y = true) :
    ∃ g1, placePiece g p x y = some g1 ∧
      g1.score = g.score + 10 * (p.cells.length : Int) ∧
      g1.offers = g.offers ∧ g1.selected = g.selected ∧ g1.firstDeal = g.firstDeal ∧
      ∀ (r : Fin H) (cl : Fin W),
        ((∃ c ∈ p.cells, (r : Int) = y + c.y ∧ (cl : Int) = x + c.x) → g1.board r cl = p.color) ∧
        ((∀ c ∈ p.cells, ¬ ((r : Int) = y + c.y ∧ (cl : Int) = x + c.x)) →
          g1.board r cl = g.board r cl) := by
  obtain ⟨b', hb', hspec⟩ := placePiece_eq g p x y h
  exact ⟨_, hb', rfl, rfl, rfl, rfl, hspec⟩

theorem after_first_write (g1 : Game) (color : Int)
    (hboard : ∀ (r : Fin H) (c : Fin W),
      g1.board r c = if r.val < 3 ∧ c.val < 3 then color else 0)
    (hu1 : (g1.offers 1).used = false) :
    clearLines (markUsedAndAutoSelect g1 0) = (markUsedAndAutoSelect g1 0, 0) ∧
    (markUsedAndAutoSelect g1 0).selected = 1 ∧
    allUsed (markUsedAndAutoSelect g1 0) = false := by
  have hm := markUsedAndAutoSelect_fields g1 0
  refine ⟨?_, ?_, ?_⟩
  · apply clearLines_of_no_full
    · intro r hfull
      apply hfull 7
      rw [hm.2.2.2.2.2.1, hboard, if_neg (fun h => absurd h.2 (by decide))]
    · intro c hfull
      apply hfull 7
      rw [hm.2.2.2.2.2.1, hboard, if_neg (fun h => absurd h.1 (by decide))]
  · rw [hm.2.2.2.2.1]
    have e : ((0 : Fin 3) + 1) = 1 := rfl
    rw [e, if_pos hu1]
  · apply not_allUsed_of_unused _ 1
    rw [hm.2.2.2.1 1 (by decide)]; exact hu1

/-- The first placement, from any state that looks like a fresh deal: empty
board, score `0`, slot 0 selected and holding the unused 3x3 block, slot 1
unused, cursor at `(0, 0)`. -/
theorem first_placement (s : Game) (d : Draws)
    (hb : ∀ (r : Fin H) (c : Fin W), s.board r c = 0) (hs : s.score = 0)
    (hsel : s.selected = 0) (hx : s.cursorX = 0) (hy : s.cursorY = 0)
    (hc0 : (s.offers 0).cells = square3) (hu0 : (s.offers 0).used = false)
    (hu1 : (s.offers 1).used = false) :
    ∃ g1 g', placePiece s (s.offers 0) 0 0 = some g1 ∧
      placeCommand s d = some g' ∧
      clearLines (markUsedAndAutoSelect g1 0) = (g', 0) ∧
      (∀ (r : Fin H) (c : Fin W),
        g'.board r c = if r.val < 3 ∧ c.val < 3 then (s.offers 0).color else 0) ∧
      g'.score = 90 ∧ (g'.offers 0).used = true ∧ g'.selected = 1 ∧
      g'.offers 1 = s.offers 1 ∧ g'.offers 2 = s.offers 2 ∧
      g'.firstDeal = s.firstDeal ∧ allUsed g' = false := by
  have hp0 : canPlace s (s.offers 0) 0 0 = true := by
    apply canPlace_square_origin s _ hb
    intro c hc
    rw [hc0] at hc
    have := (mem_square3 c).1 hc
    omega
  obtain ⟨g1, hg1, hscore, hoff, hsel1, hfd, hspec⟩ := placePiece_some s (s.offers 0) 0 0 hp0
  have hboard : ∀ (r : Fin H) (c : Fin W),
      g1.board r c = if r.val < 3 ∧ c.val < 3 then (s.offers 0).color else 0 := by
    intro r c
    by_cases hcov : r.val < 3 ∧ c.val < 3
    · rw [if_pos hcov]
      apply (hspec r c).1
      rw [hc0]
      exact (covered_square3_iff r c).2 hcov
    · rw [if_neg hcov, ← hb r c]
      apply (hspec r c).2
      intro c' hc' hcv
      rw [hc0] at hc'
      exact hcov ((covered_square3_iff r c).1 ⟨c', hc', hcv⟩)
  obtain ⟨hclear, hmsel, hnot⟩ :=
    after_first_write g1 (s.offers 0).color hboard (by rw [hoff]; exact hu1)
  have hm := markUsedAndAutoSelect_fields g1 0
  have hcmd : placeCommand s d = some (markUsedAndAutoSelect g1 0) := by
    have hg1' : placePiece s (s.offers s.selected) s.cursorX s.cursorY = some g1 := by
      rw [hsel, hx, hy]; exact hg1
    have h := placeCommand_eq s d g1 (by rw [hsel]; exact hu0)
      (by rw [hsel, hx, hy]; exact hp0) hg1'
    rw [hsel1, hsel, hclear] at h
    rw [h, if_neg (by rw [hnot]; exact Bool.false_ne_true)]
  refine ⟨g1, _, hg1, hcmd, hclear, ?_, ?_, hm.1, hmsel, ?_, ?_, ?_, hnot⟩
  · intro r c
    rw [hm.2.2.2.2.2.1]
    exact hboard r c
  · rw [hm.2.2.2.2.2.2.1, hscore, hs, hc0]; rfl
  · rw [hm.2.2.2.1 1 (by decide), hoff]
  · rw [hm.2.2.2.1 2 (by decide), hoff]
  · rw [hm.2.2.2.2.2.2.2.2.2.2, hfd]

/-- C14: from the opening deal (empty board, score `0`, slot 0 selected, cursor
`(0, 0)`) the place command succeeds: exactly the nine cells with row and
column in `0..2` hold the colour of the first offer, which is not `0`, the other
55 cells are `0`; the score is `90`; `clearLines` finds no full line, returns
`0` and changes nothing; slot 0 is marked used and slot 1 selected; slots 1 and
2 still hold their unused opening blocks, so no refill took place. -/
theorem opening_placement (d d' : Draws) :
    ∃ g1 g', placePiece (openingDeal d) ((openingDeal d).offers 0) 0 0 = some g1 ∧
      placeCommand (openingDeal d) d' = some g' ∧
      clearLines (markUsedAndAutoSelect g1 0) = (g', 0) ∧
      (∀ (r : Fin H) (c : Fin W),
        g'.board r c = if r.val < 3 ∧ c.val < 3 then ((openingDeal d).offers 0).color else 0) ∧
      ((openingDeal d).offers 0).color ≠ 0 ∧
      g'.score = 90 ∧ (g'.offers 0).used = true ∧ g'.selected = 1 ∧
      g'.offers 1 = makeRect 3 3 (COLORS (d.color 1)) ∧
      g'.offers 2 = makeRect 2 3 (COLORS (d.color 2)) ∧
      (g'.offers 1).used = false ∧ (g'.offers 2).used = false ∧
      allUsed g' = false := by
  have ho := resetGame_offers newGame d
  have hf := resetGame_frame newGame d
  rw [← openingDeal_eq_reset] at ho hf
  obtain ⟨g1, g', h1, h2, h3, h4, h5, h6, h7, h8, h9, _, h11⟩ :=
    first_placement (openingDeal d) d'
      (fun r c => by rw [hf.2.2.2.2]) hf.2.1 (openingDeal_tray d).2 hf.2.2.1 hf.2.2.2.1
      (by rw [ho.1, makeRect_3_3_cells]) ((openingDeal_tray d).1 0) ((openingDeal_tray d).1 1)
  refine ⟨g1, g', h1, h2, h3, h4, ?_, h5, h6, h7, ?_, ?_, ?_, ?_, h11⟩
  · rw [ho.1, makeRect_color]; exact COLORS_ne_zero _
  · rw [h8, ho.2.1]
  · rw [h9, ho.2.2.1]
  · rw [h8]; exact (openingDeal_tray d).1 1
  · rw [h9]; exact (openingDeal_tray d).1 2

/-! ### Boards with isolated gaps -/

theorem adjacent_turn_shift (v : Int × Int) (a b : Pt) (h : Adjacent a b) :
    Adjacent (shiftBy v (turn a)) (shiftBy v (turn b)) := by
  unfold Adjacent at h ⊢
  simp only [shiftBy, turn]
  omega

theorem hasAdjacentPair_turn {cs : List Pt} (h : HasAdjacentPair cs) :
    HasAdjacentPair (normCells (cs.map turn)) := by
  obtain ⟨a, ha, b, hb, hab⟩ := h
  have hmem : ∀ c ∈ cs, shiftBy (minXY (cs.map turn)) (turn c) ∈ normCells (cs.map turn) := by
    intro c hc
    rw [(normCells_perm _).mem_iff]
    exact List.mem_map_of_mem _ (List.mem_map_of_mem _ hc)
  exact ⟨_, hmem a ha, _, hmem b hb, adjacent_turn_shift _ a b hab⟩

theorem largeShape_adjacent (cs : List Pt) (h : LargeShape cs) : HasAdjacentPair cs := by
  induction h with
  | template color t h1 h11 =>
    rw [randomPiece_cells]
    interval_cases t <;> decide
  | square color => rw [makeRect_3_3_cells]; decide
  | rect color => rw [makeRect_2_3_cells]; decide
  | rotated p _ ih => exact hasAdjacentPair_turn ih

theorem canPlace_false_of_isolated (g : Game) (p : Piece) (x y : Int)
    (hiso : IsolatedGaps g.board) (hadj : HasAdjacentPair p.cells) :
    canPlace g p x y = false := by
  rw [← Bool.not_eq_true]
  intro hp
  obtain ⟨a, ha, b, hb, hab⟩ := hadj
  have hina := inBounds_of_canPlace g p x y hp a ha
  have hinb := inBounds_of_canPlace g p x y hp b hb
  obtain ⟨_, _, _, _, hza⟩ := (canPlace_true_iff g p x y).1 hp a ha
  obtain ⟨_, _, _, _, hzb⟩ := (canPlace_true_iff g p x y).1 hp b hb
  have ea := hza _ _ (coe_rowIdx _ _ hina) (coe_colIdx _ _ hina)
  have eb := hzb _ _ (coe_rowIdx _ _ hinb) (coe_colIdx _ _ hinb)
  apply hiso _ _ _ _ ea eb
  have r1 := coe_rowIdx _ _ hina
  have c1 := coe_colIdx _ _ hina
  have r2 := coe_rowIdx _ _ hinb
  have c2 := coe_colIdx _ _ hinb
  simp only [Nat.cast_inj] at r1 c1 r2 c2
  unfold Adjacent at hab ⊢
  simp only
  omega

theorem monomino_cells (color : Int) : (randomPiece color 0).cells = [⟨0, 0⟩] := by
  rw [randomPiece_cells]; decide

/-- C15: on a board where no two empty cells are orthogonally adjacent, a tray
whose unused offers are all catalog shapes with at least two cells (templates
`1..11`, the opening rectangles, any rotation) has no move; and on a board with
at least one empty cell a tray with an unused monomino has a move. -/
theorem isolated_gaps_moves (g : Game) :
    (IsolatedGaps g.board →
      (∀ i, (g.offers i).used = false → LargeShape (g.offers i).cells) →
      anyMovePossible g = false) ∧
    ((∃ (r : Fin H) (c : Fin W), g.board r c = 0) →
      (∃ (i : Fin 3) (color : Int), (g.offers i).used = false ∧
        (g.offers i).cells = (randomPiece color 0).cells) →
      anyMovePossible g = true) := by
  constructor
  · intro hiso hshape
    rw [← Bool.not_eq_true, anyMovePossible_true_iff]
    rintro ⟨i, hu, x, y, _, _, _, _, hp⟩
    rw [canPlace_false_of_isolated g _ x y hiso (largeShape_adjacent _ (hshape i hu))] at hp
    exact Bool.false_ne_true hp
  · rintro ⟨r, c, hz⟩ ⟨i, color, hu, hcells⟩
    rw [anyMovePossible_true_iff]
    have hc8 : c.val < 8 := c.isLt
    have hr8 : r.val < 8 := r.isLt
    refine ⟨i, hu, (c.val : Int), (r.val : Int), by omega, by omega, by omega, by omega, ?_⟩
    rw [canPlace_true_iff, hcells, monomino_cells]
    intro p hp
    simp only [List.mem_singleton] at hp
    subst hp
    refine ⟨by simp, by simp only [add_zero]; omega, by simp, by simp only [add_zero]; omega, ?_⟩
    intro r' c' hr' hc'
    simp only [add_zero, Nat.cast_inj] at hr' hc'
    have e1 : r' = r := Fin.ext hr'
    have e2 : c' = c := Fin.ext hc'
    rw [e1, e2]; exact hz

/-- The checkerboard of gaps with a domino and a turned 2x3 block on offer has
no move; the board with one gap in row 0 and monominoes on offer has one. -/
theorem isolated_gaps_moves_witness :
    (IsolatedGaps checkerGame.board ∧
      (∀ i, (checkerGame.offers i).used = false → LargeShape (checkerGame.offers i).cells) ∧
      anyMovePossible checkerGame = false) ∧
    ((∃ (r : Fin H) (c : Fin W), rowGapGame.board r c = 0) ∧
      (∃ (i : Fin 3) (color : Int), (rowGapGame.offers i).used = false ∧
        (rowGapGame.offers i).cells = (randomPiece color 0).cells) ∧
      anyMovePossible rowGapGame = true) :=
  (fun (h1 : IsolatedGaps checkerGame.board)
      (h2 : ∀ i, (checkerGame.offers i).used = false → LargeShape (checkerGame.offers i).cells)
      (h3 : ∃ (r : Fin H) (c : Fin W), rowGapGame.board r c = 0)
      (h4 : ∃ (i : Fin 3) (color : Int), (rowGapGame.offers i).used = false ∧
        (rowGapGame.offers i).cells = (randomPiece color 0).cells) =>
    ⟨⟨h1, h2, (isolated_gaps_moves checkerGame).1 h1 h2⟩,
      ⟨h3, h4, (isolated_gaps_moves rowGapGame).2 h3 h4⟩⟩)
    (by decide)
    (fun i hu => by
      fin_cases i
      · exact LargeShape.template 11 1 (by decide) (by decide)
      · exact LargeShape.rotated _ (LargeShape.rect 10)
      · exact absurd hu (by decide))
    ⟨0, 7, by decide⟩
    ⟨0, 11, by decide, rfl⟩

/-! ### Machine arithmetic: `canPlace` -/

theorem wrap32_of_fits (v : Int) (h : Fits32 v) : wrap32 v = v := by
  unfold Fits32 at h
  unfold wrap32
  omega

theorem machine_canPlaceLoop_iff (b : Board) (x y : Int) (cs : List Pt) :
    Machine.canPlaceLoop b x y cs = true ↔
      ∀ c ∈ cs, ∃ h : inBounds (wrap32 (x + c.x)) (wrap32 (y + c.y)) = true,
        b.cell (wrap32 (x + c.x)) (wrap32 (y + c.y)) h = 0 := by
  induction cs with
  | nil => simp [Machine.canPlaceLoop]
  | cons c cs ih =>
    simp only [Machine.canPlaceLoop, List.mem_cons, forall_eq_or_imp]
    by_cases h : inBounds (wrap32 (x + c.x)) (wrap32 (y + c.y)) = true
    · by_cases hz : b.cell (wrap32 (x + c.x)) (wrap32 (y + c.y)) h = 0
      · simp [h, hz, ih]
      · simp [h, hz]
    · simp [h]

/-- The 32-bit `canPlace` for any arguments: the test is made on the cells
whose coordinates are the 32-bit sums. -/
theorem machine_canPlace_wrapped (g : Game) (p : Piece) (x y : Int) :
    Machine.canPlace g p x y = true ↔
      ∀ c ∈ p.cells,
        0 ≤ wrap32 (x + c.x) ∧ wrap32 (x + c.x) < 8 ∧
        0 ≤ wrap32 (y + c.y) ∧ wrap32 (y + c.y) < 8 ∧
        ∀ (r : Fin H) (cl : Fin W), (r : Int) = wrap32 (y + c.y) →
          (cl : Int) = wrap32 (x + c.x) → g.board r cl = 0 := by
  rw [Machine.canPlace, machine_canPlaceLoop_iff]
  constructor
  · intro hall c hc
    obtain ⟨h, hz⟩ := hall c hc
    have hb := (inBounds_iff _ _).1 h
    refine ⟨hb.1, hb.2.1, hb.2.2.1, hb.2.2.2, ?_⟩
    intro r cl hr hcl
    rw [← cell_eq_of_coe g.board _ _ h r cl hr hcl]; exact hz
  · intro hall c hc
    obtain ⟨h1, h2, h3, h4, hz⟩ := hall c hc
    have h : inBounds (wrap32 (x + c.x)) (wrap32 (y + c.y)) = true :=
      (inBounds_iff _ _).2 ⟨h1, h2, h3, h4⟩
    exact ⟨h, hz _ _ (coe_rowIdx _ _ h) (coe_colIdx _ _ h)⟩

theorem machine_canPlace_exact_iff (g : Game) (p : Piece) (x y : Int)
    (hfit : ∀ c ∈ p.cells, Fits32 (x + c.x) ∧ Fits32 (y + c.y)) :
    Machine.canPlace g p x y = true ↔
      ∀ c ∈ p.cells,
        0 ≤ x + c.x ∧ x + c.x < 8 ∧ 0 ≤ y + c.y ∧ y + c.y < 8 ∧
        ∀ (r : Fin H) (cl : Fin W), (r : Int) = y + c.y → (cl : Int) = x + c.x →
          g.board r cl = 0 := by
  rw [machine_canPlace_wrapped]
  constructor
  · intro h c hc
    have := h c hc
    rwa [wrap32_of_fits _ (hfit c hc).1, wrap32_of_fits _ (hfit c hc).2] at this
  · intro h c hc
    rw [wrap32_of_fits _ (hfit c hc).1, wrap32_of_fits _ (hfit c hc).2]
    exact h c hc

/-- Where no sum overflows the 32-bit test is the exact one. -/
theorem machine_canPlace_eq (g : Game) (p : Piece) (x y : Int)
    (hfit : ∀ c ∈ p.cells, Fits32 (x + c.x) ∧ Fits32 (y + c.y)) :
    Machine.canPlace g p x y = canPlace g p x y := by
  rw [Bool.eq_iff_iff, machine_canPlace_exact_iff g p x y hfit, canPlace_true_iff]

/-- Whenever the exact test holds, no sum overflows and the 32-bit test holds
too. -/
theorem machine_canPlace_of_exact (g : Game) (p : Piece) (x y : Int)
    (h : canPlace g p x y = true) : Machine.canPlace g p x y = true := by
  rw [machine_canPlace_eq g p x y, h]
  intro c hc
  obtain ⟨h1, h2, h3, h4, _⟩ := (canPlace_true_iff g p x y).1 h c hc
  unfold Fits32
  omega

theorem machine_normalize_cells (p : Piece) :
    (Machine.normalize p).cells =
      sortCells (p.cells.map fun c =>
        ⟨wrap32 (c.x - (minXY p.cells).1), wrap32 (c.y - (minXY p.cells).2)⟩) := rfl

theorem machine_normalize_eq (p : Piece)
    (h : ∀ c ∈ p.cells,
      Fits32 (c.x - (minXY p.cells).1) ∧ Fits32 (c.y - (minXY p.cells).2)) :
    Machine.normalize p = normalize p := by
  have hmap : (p.cells.map fun c =>
        (⟨wrap32 (c.x - (minXY p.cells).1), wrap32 (c.y - (minXY p.cells).2)⟩ : Pt)) =
      p.cells.map (shiftBy (minXY p.cells)) := by
    apply List.map_congr_left
    intro c hc
    simp only [shiftBy, wrap32_of_fits _ (h c hc).1, wrap32_of_fits _ (h c hc).2]
  simp only [Machine.normalize, normalize_eq, normCells, hmap]

theorem mem_normCells (cs : List Pt) (c : Pt) :
    c ∈ normCells cs ↔ ∃ c0 ∈ cs, shiftBy (minXY cs) c0 = c := by
  rw [(normCells_perm cs).mem_iff, List.mem_map]

theorem machine_normalize_of_exact (p : Piece) (h : NormalizesExactly p) :
    Machine.normalize p = normalize p := by
  apply machine_normalize_eq
  intro c hc
  exact h (shiftBy (minXY p.cells) c) ((mem_normCells _ _).2 ⟨c, hc, rfl⟩)

theorem minXY_le (cs : List Pt) :
    (minXY cs).1 ≤ 1000000000 ∧ (minXY cs).2 ≤ 1000000000 ∧
    ∀ c ∈ cs, (minXY cs).1 ≤ c.x ∧ (minXY cs).2 ≤ c.y := by
  obtain ⟨h1, h2, _⟩ := foldl_min_spec (fun c => c.x) cs 1000000000
  obtain ⟨k1, k2, _⟩ := foldl_min_spec (fun c => c.y) cs 1000000000
  rw [minXY_fst, minXY_snd]
  exact ⟨h1, k1, fun c hc => ⟨h2 c hc, k2 c hc⟩⟩

theorem minXY_ge (cs : List Pt) (lox loy : Int) (hlox : lox ≤ 1000000000)
    (hloy : loy ≤ 1000000000) (h : ∀ c ∈ cs, lox ≤ c.x ∧ loy ≤ c.y) :
    lox ≤ (minXY cs).1 ∧ loy ≤ (minXY cs).2 := by
  obtain ⟨_, _, h3⟩ := foldl_min_spec (fun c => c.x) cs 1000000000
  obtain ⟨_, _, k3⟩ := foldl_min_spec (fun c => c.y) cs 1000000000
  rw [minXY_fst, minXY_snd]
  constructor
  · rcases h3 with e | ⟨c, hc, e⟩
    · rw [e]; exact hlox
    · rw [e]; exact (h c hc).1
  · rcases k3 with e | ⟨c, hc, e⟩
    · rw [e]; exact hloy
    · rw [e]; exact (h c hc).2

theorem mem_machine_normalize (p : Piece) (c : Pt) :
    c ∈ (Machine.normalize p).cells ↔
      ∃ c0 ∈ p.cells, c = ⟨wrap32 (c0.x - (minXY p.cells).1),
        wrap32 (c0.y - (minXY p.cells).2)⟩ := by
  rw [machine_normalize_cells, (sortCells_perm _).mem_iff, List.mem_map]
  constructor
  · rintro ⟨c0, h0, e⟩; exact ⟨c0, h0, e.symm⟩
  · rintro ⟨c0, h0, e⟩; exact ⟨c0, h0, e.symm⟩

theorem wrap32_nonneg_of_range (d : Int) (h0 : 0 ≤ d) (h1 : d ≤ 4294967295)
    (hw : 0 ≤ wrap32 d) : d ≤ 2147483647 ∧ wrap32 d = d := by
  unfold wrap32 at hw ⊢
  omega

/-- The conditions under which the 32-bit `normalize` brings both minima to
`0`, for a piece of `int` offsets: they are necessary. -/
theorem machine_normalize_minima_forces (p : Piece)
    (hfit : ∀ c ∈ p.cells, Fits32 c.x ∧ Fits32 c.y)
    (hx0 : ∃ c ∈ (Machine.normalize p).cells, c.x = 0)
    (hxpos : ∀ c ∈ (Machine.normalize p).cells, 0 ≤ c.x)
    (hy0 : ∃ c ∈ (Machine.normalize p).cells, c.y = 0)
    (hypos : ∀ c ∈ (Machine.normalize p).cells, 0 ≤ c.y) :
    ((∃ c ∈ p.cells, c.x ≤ 1000000000) ∧ (∃ c ∈ p.cells, c.y ≤ 1000000000)) ∧
    ∀ a ∈ p.cells, ∀ b ∈ p.cells, a.x - b.x ≤ 2147483647 ∧ a.y - b.y ≤ 2147483647 := by
  obtain ⟨hm1, hm2, hmle⟩ := minXY_le p.cells
  have hlow : -2147483648 ≤ (minXY p.cells).1 ∧ -2147483648 ≤ (minXY p.cells).2 :=
    minXY_ge p.cells (-2147483648) (-2147483648) (by omega) (by omega)
      (fun c hc => ⟨(hfit c hc).1.1, (hfit c hc).2.1⟩)
  have hrange : ∀ c ∈ p.cells,
      (0 ≤ c.x - (minXY p.cells).1 ∧ c.x - (minXY p.cells).1 ≤ 4294967295) ∧
      (0 ≤ c.y - (minXY p.cells).2 ∧ c.y - (minXY p.cells).2 ≤ 4294967295) := by
    intro c hc
    have h1 := hmle c hc
    have h2 := hfit c hc
    unfold Fits32 at h2
    omega
  have hexact : ∀ c ∈ p.cells,
      (c.x - (minXY p.cells).1 ≤ 2147483647 ∧
        wrap32 (c.x - (minXY p.cells).1) = c.x - (minXY p.cells).1) ∧
      (c.y - (minXY p.cells).2 ≤ 2147483647 ∧
        wrap32 (c.y - (minXY p.cells).2) = c.y - (minXY p.cells).2) := by
    intro c hc
    have hmem : (⟨wrap32 (c.x - (minXY p.cells).1), wrap32 (c.y - (minXY p.cells).2)⟩ : Pt) ∈
        (Machine.normalize p).cells := (mem_machine_normalize p _).2 ⟨c, hc, rfl⟩
    exact ⟨wrap32_nonneg_of_range _ (hrange c hc).1.1 (hrange c hc).1.2 (hxpos _ hmem),
      wrap32_nonneg_of_range _ (hrange c hc).2.1 (hrange c hc).2.2 (hypos _ hmem)⟩
  refine ⟨⟨?_, ?_⟩, ?_⟩
  · obtain ⟨c, hc, e⟩ := hx0
    obtain ⟨c0, h0, rfl⟩ := (mem_machine_normalize p c).1 hc
    simp only at e
    rw [(hexact c0 h0).1.2] at e
    exact ⟨c0, h0, by omega⟩
  · obtain ⟨c, hc, e⟩ := hy0
    obtain ⟨c0, h0, rfl⟩ := (mem_machine_normalize p c).1 hc
    simp only at e
    rw [(hexact c0 h0).2.2] at e
    exact ⟨c0, h0, by omega⟩
  · intro a ha b hb
    have h1 := (hexact a ha)
    have h2 := hmle b hb
    omega

theorem machine_normalize_eq_of_span (p : Piece)
    (hx : ∃ c ∈ p.cells, c.x ≤ 1000000000) (hy : ∃ c ∈ p.cells, c.y ≤ 1000000000)
    (hw : ∀ a ∈ p.cells, ∀ b ∈ p.cells, a.x - b.x ≤ 2147483647 ∧ a.y - b.y ≤ 2147483647) :
    Machine.normalize p = normalize p := by
  apply machine_normalize_eq
  intro c hc
  obtain ⟨⟨bx, hbx, ebx⟩, hlx⟩ := minXY_fst_spec p.cells hx
  obtain ⟨⟨b, hb, eb⟩, hly⟩ := minXY_snd_spec p.cells hy
  have h1 := (hw c hc bx hbx).1
  have h2 := (hw c hc b hb).2
  have h3 := hlx c hc
  have h4 := hly c hc
  unfold Fits32
  omega

theorem machine_normalize_canonical_fix (q : Piece) (hc : Canonical q.cells)
    (hfit : ∀ c ∈ q.cells, c.x ≤ 2147483647 ∧ c.y ≤ 2147483647) :
    Machine.normalize q = q := by
  have hfound := canonical_found hc
  obtain ⟨_, _, hx0, _, hy0⟩ := hc
  have hm := minXY_ge q.cells 0 0 (by omega) (by omega) (fun c hcm => ⟨hx0 c hcm, hy0 c hcm⟩)
  have hle := (minXY_le q.cells).2.2
  have e1 : Machine.normalize q = normalize q := by
    apply machine_normalize_eq
    intro c hcm
    have := hle c hcm
    have := hfit c hcm
    unfold Fits32
    omega
  rw [e1, normalize_eq]
  have hfix : normCells q.cells = q.cells :=
    canonicalOf_unique (normCells_canonicalOf q.cells hfound)
      (canonicalOf_self ⟨‹_›, ‹_›, hx0, ‹_›, hy0⟩)
  rw [hfix]

/-- C7, as the code has it: for a piece of 32-bit offsets,
`normalize` leaves the cells sorted by `(y, then x)` and keeps the cell count,
the colour and the used flag; the minimum `x` and the minimum `y` are both `0`
afterwards exactly when the piece has a cell with `x ≤ 10^9`, a cell with
`y ≤ 10^9` (the minima start from `1e9`) and spans at most `2^31 - 1` in `x`
and in `y` (so that no subtraction overflows); and for such a piece the result
is a permutation of the input translated by its minima `(minx, miny)` and is
left unchanged by a second `normalize`. -/
theorem normalize_machine_spec (p : Piece)
    (hfit : ∀ c ∈ p.cells,
      (-2147483648 ≤ c.x ∧ c.x ≤ 2147483647) ∧ (-2147483648 ≤ c.y ∧ c.y ≤ 2147483647)) :
    (Machine.normalize p).cells.Pairwise (fun a b => a.y < b.y ∨ (a.y = b.y ∧ a.x ≤ b.x)) ∧
    (Machine.normalize p).cells.length = p.cells.length ∧
    (Machine.normalize p).color = p.color ∧ (Machine.normalize p).used = p.used ∧
    ((((∃ c ∈ (Machine.normalize p).cells, c.x = 0) ∧
          ∀ c ∈ (Machine.normalize p).cells, 0 ≤ c.x) ∧
        ((∃ c ∈ (Machine.normalize p).cells, c.y = 0) ∧
          ∀ c ∈ (Machine.normalize p).cells, 0 ≤ c.y)) ↔
      (((∃ c ∈ p.cells, c.x ≤ 1000000000) ∧ (∃ c ∈ p.cells, c.y ≤ 1000000000)) ∧
        ∀ a ∈ p.cells, ∀ b ∈ p.cells, a.x - b.x ≤ 2147483647 ∧ a.y - b.y ≤ 2147483647)) ∧
    ((((∃ c ∈ p.cells, c.x ≤ 1000000000) ∧ (∃ c ∈ p.cells, c.y ≤ 1000000000)) ∧
        ∀ a ∈ p.cells, ∀ b ∈ p.cells, a.x - b.x ≤ 2147483647 ∧ a.y - b.y ≤ 2147483647) →
      (∃ mx my : Int,
        ((∃ c ∈ p.cells, c.x = mx) ∧ ∀ c ∈ p.cells, mx ≤ c.x) ∧
        ((∃ c ∈ p.cells, c.y = my) ∧ ∀ c ∈ p.cells, my ≤ c.y) ∧
        (Machine.normalize p).cells.Perm (p.cells.map fun c => ⟨c.x - mx, c.y - my⟩)) ∧
      Machine.normalize (Machine.normalize p) = Machine.normalize p) := by
  have hsorted : (Machine.normalize p).cells.Pairwise
      (fun a b => a.y < b.y ∨ (a.y = b.y ∧ a.x ≤ b.x)) := by
    rw [machine_normalize_cells]
    exact List.Pairwise.imp (fun {a b} h => (cellLe_iff a b).1 h) (sortCells_sorted _)
  have hlen : (Machine.normalize p).cells.length = p.cells.length := by
    rw [machine_normalize_cells, (sortCells_perm _).length_eq, List.length_map]
  have hsuff : (((∃ c ∈ p.cells, c.x ≤ 1000000000) ∧ (∃ c ∈ p.cells, c.y ≤ 1000000000)) ∧
        ∀ a ∈ p.cells, ∀ b ∈ p.cells, a.x - b.x ≤ 2147483647 ∧ a.y - b.y ≤ 2147483647) →
      Machine.normalize p = normalize p := fun h =>
    machine_normalize_eq_of_span p h.1.1 h.1.2 h.2
  refine ⟨hsorted, hlen, rfl, rfl, ⟨?_, ?_⟩, ?_⟩
  · rintro ⟨⟨hx0, hxpos⟩, ⟨hy0, hypos⟩⟩
    exact machine_normalize_minima_forces p hfit hx0 hxpos hy0 hypos
  · intro h
    rw [hsuff h]
    have hs := normalize_exact_spec p h.1.1 h.1.2
    exact ⟨hs.1, hs.2.1⟩
  · intro h
    rw [hsuff h]
    have hs := normalize_exact_spec p h.1.1 h.1.2
    refine ⟨hs.2.2.2.1, ?_⟩
    apply machine_normalize_canonical_fix
    · exact (normCells_canonicalOf p.cells ⟨h.1.1, h.1.2⟩).1
    · intro c hc
      obtain ⟨c0, h0, e⟩ := (mem_normCells p.cells c).1 hc
      subst e
      obtain ⟨⟨bx, hbx, ebx⟩, _⟩ := minXY_fst_spec p.cells h.1.1
      obtain ⟨⟨b, hb, eb⟩, _⟩ := minXY_snd_spec p.cells h.1.2
      have h1 := (h.2 c0 h0 bx hbx).1
      have h2 := (h.2 c0 h0 b hb).2
      simp only [shiftBy]
      omega

/-- The tromino `(3, -2)`, `(2, -2)`, `(2, -1)`: it is moved by `(-2, 2)` and
put in order. -/
theorem normalize_machine_spec_witness :
    (∀ c ∈ skewPiece.cells,
      (-2147483648 ≤ c.x ∧ c.x ≤ 2147483647) ∧ (-2147483648 ≤ c.y ∧ c.y ≤ 2147483647)) ∧
    (((∃ c ∈ skewPiece.cells, c.x ≤ 1000000000) ∧ (∃ c ∈ skewPiece.cells, c.y ≤ 1000000000)) ∧
      ∀ a ∈ skewPiece.cells, ∀ b ∈ skewPiece.cells,
        a.x - b.x ≤ 2147483647 ∧ a.y - b.y ≤ 2147483647) ∧
    (Machine.normalize skewPiece).cells = [⟨0, 0⟩, ⟨1, 0⟩, ⟨0, 1⟩] ∧
    (Machine.normalize skewPiece).cells.Pairwise
      (fun a b => a.y < b.y ∨ (a.y = b.y ∧ a.x ≤ b.x)) ∧
    (Machine.normalize skewPiece).cells.length = skewPiece.cells.length ∧
    (((∃ c ∈ (Machine.normalize skewPiece).cells, c.x = 0) ∧
        ∀ c ∈ (Machine.normalize skewPiece).cells, 0 ≤ c.x) ∧
      ((∃ c ∈ (Machine.normalize skewPiece).cells, c.y = 0) ∧
        ∀ c ∈ (Machine.normalize skewPiece).cells, 0 ≤ c.y)) ∧
    ((∃ mx my : Int,
        ((∃ c ∈ skewPiece.cells, c.x = mx) ∧ ∀ c ∈ skewPiece.cells, mx ≤ c.x) ∧
        ((∃ c ∈ skewPiece.cells, c.y = my) ∧ ∀ c ∈ skewPiece.cells, my ≤ c.y) ∧
        (Machine.normalize skewPiece).cells.Perm
          (skewPiece.cells.map fun c => ⟨c.x - mx, c.y - my⟩)) ∧
      Machine.normalize (Machine.normalize skewPiece) = Machine.normalize skewPiece) :=
  ⟨by decide, by decide, by decide,
    (normalize_machine_spec skewPiece (by decide)).1,
    (normalize_machine_spec skewPiece (by decide)).2.1,
    (normalize_machine_spec skewPiece (by decide)).2.2.2.2.1.2 (by decide),
    (normalize_machine_spec skewPiece (by decide)).2.2.2.2.2 (by decide)⟩

/-- C7 fails as stated.  The piece with the single cell `(2000000000, 0)` is not
empty, yet `normalize` leaves the cell `(1000000000, 0)`: the minimum `x` is not
`0`.  The piece `(-2000000000, 0)`, `(2000000000, 0)` has its minimum found, but
the subtraction overflows and leaves `(-294967296, 0)`, `(0, 0)`: the minimum
`x` is negative.  The piece with the single cell `(2147483647, 0)` is changed
again by a second `normalize`. -/
theorem normalize_machine_counterexample :
    (farPiece.cells ≠ [] ∧
      (Machine.normalize farPiece).cells = [⟨1000000000, 0⟩] ∧
      ¬ (∃ c ∈ (Machine.normalize farPiece).cells, c.x = 0)) ∧
    (widePiece.cells ≠ [] ∧
      (Machine.normalize widePiece).cells = [⟨-294967296, 0⟩, ⟨0, 0⟩] ∧
      ¬ (∀ c ∈ (Machine.normalize widePiece).cells, 0 ≤ c.x)) ∧
    Machine.normalize (Machine.normalize edgePiece) ≠ Machine.normalize edgePiece := by
  decide

/-! ### Four quarter turns in exact arithmetic -/

theorem normCells_nonneg (l : List Pt) : ∀ c ∈ normCells l, 0 ≤ c.x ∧ 0 ≤ c.y := by
  intro c hc
  obtain ⟨c0, h0, e⟩ := (mem_normCells l c).1 hc
  subst e
  have := (minXY_le l).2.2 c0 h0
  simp only [shiftBy]
  omega

theorem normCells_min_x (l : List Pt) (h : ∃ c ∈ l, c.x ≤ 1000000000) :
    ∃ c ∈ normCells l, c.x = 0 := by
  obtain ⟨⟨c, hc, e⟩, _⟩ := minXY_fst_spec l h
  exact ⟨shiftBy (minXY l) c, (mem_normCells _ _).2 ⟨c, hc, rfl⟩, by simp [shiftBy, e]⟩

theorem normCells_min_y (l : List Pt) (h : ∃ c ∈ l, c.y ≤ 1000000000) :
    ∃ c ∈ normCells l, c.y = 0 := by
  obtain ⟨⟨c, hc, e⟩, _⟩ := minXY_snd_spec l h
  exact ⟨shiftBy (minXY l) c, (mem_normCells _ _).2 ⟨c, hc, rfl⟩, by simp [shiftBy, e]⟩

theorem normCells_ne_nil (l : List Pt) (h : l ≠ []) : normCells l ≠ [] := by
  intro e
  have hlen := (normCells_perm l).length_eq
  rw [e, List.length_map] at hlen
  exact h (List.length_eq_zero.1 hlen.symm)

theorem translate_turn {a cs : List Pt} (h : ∃ v, a.Perm (cs.map (shiftBy v))) :
    ∃ w, (normCells (a.map turn)).Perm ((cs.map turn).map (shiftBy w)) := by
  obtain ⟨v, hv⟩ := h
  refine ⟨((v.2 + (minXY (a.map turn)).1, (minXY (a.map turn)).2 - v.1)), ?_⟩
  refine (normCells_perm _).trans ?_
  refine ((hv.map turn).map (shiftBy _)).trans ?_
  rw [List.map_map, List.map_map, List.map_map]
  refine List.Perm.of_eq (List.map_congr_left ?_)
  intro c _
  simp only [Function.comp_apply, shiftBy_turn]

theorem three_turns_canonical (cs : List Pt) (hne : cs ≠ []) :
    Canonical (normCells ((normCells ((normCells (cs.map turn)).map turn)).map turn)) := by
  have h1ne : normCells (cs.map turn) ≠ [] :=
    normCells_ne_nil _ (by simpa using hne)
  obtain ⟨c1, hc1⟩ := List.exists_mem_of_ne_nil _ h1ne
  have h1pos := normCells_nonneg (cs.map turn)
  -- the second turn: every `y` is `-x ≤ 0`
  have hy2 : ∃ c ∈ (normCells (cs.map turn)).map turn, c.y ≤ 1000000000 := by
    refine ⟨turn c1, List.mem_map_of_mem _ hc1, ?_⟩
    have := (h1pos c1 hc1).1
    simp only [turn]; omega
  obtain ⟨c2, hc2, e2⟩ := normCells_min_y _ hy2
  have h2pos := normCells_nonneg ((normCells (cs.map turn)).map turn)
  -- the third turn: some `x` is `0` and every `y` is `-x ≤ 0`
  have hfound : MinimaFound ((normCells ((normCells (cs.map turn)).map turn)).map turn) := by
    constructor
    · exact ⟨turn c2, List.mem_map_of_mem _ hc2, by simp only [turn]; omega⟩
    · refine ⟨turn c2, List.mem_map_of_mem _ hc2, ?_⟩
      have := (h2pos c2 hc2).1
      simp only [turn]; omega
  exact (normCells_canonicalOf _ hfound).1

theorem four_turns_canonicalOf (cs : List Pt) (hne : cs ≠ []) :
    CanonicalOf
      (normCells (List.map turn (normCells (List.map turn
        (normCells (List.map turn (normCells (List.map turn cs)))))))) cs := by
  have h3 := three_turns_canonical cs hne
  refine ⟨(canonicalOf_turn (canonicalOf_self h3)).1, ?_⟩
  have ht := translate_turn (translate_turn (translate_turn (translate_turn
    (⟨(0, 0), List.Perm.of_eq (by
      rw [show shiftBy (0, 0) = id from funext shiftBy_zero, List.map_id])⟩ :
      ∃ v, cs.Perm (cs.map (shiftBy v))))))
  rwa [map_turn_four] at ht

theorem rotatedFour_cells (p : Piece) :
    rotatedFour p =
      { p with
        cells := normCells (List.map turn (normCells (List.map turn
          (normCells (List.map turn (normCells (List.map turn p.cells))))))) } := rfl

/-- In exact arithmetic four quarter turns of a non-empty piece always end in
its canonical form; `normalize` reaches the canonical form exactly when the
minima are found below the `1e9` they start from. -/
theorem rotatedFour_exact_iff (p : Piece) (hne : p.cells ≠ []) :
    rotatedFour p = normalize p ↔
      ((∃ c ∈ p.cells, c.x ≤ 1000000000) ∧ (∃ c ∈ p.cells, c.y ≤ 1000000000)) := by
  have h4 := four_turns_canonicalOf p.cells hne
  rw [rotatedFour_cells, normalize_eq]
  constructor
  · intro h
    have hcells := congrArg Piece.cells h
    simp only at hcells
    obtain ⟨⟨_, ⟨cx, hcx, ex⟩, _, ⟨cy, hcy, ey⟩, _⟩, _⟩ := h4
    rw [hcells] at hcx hcy
    obtain ⟨c0, h0, e0⟩ := (mem_normCells _ _).1 hcx
    obtain ⟨c1, h1, e1⟩ := (mem_normCells _ _).1 hcy
    subst e0; subst e1
    simp only [shiftBy] at ex ey
    have hm := minXY_le p.cells
    exact ⟨⟨c0, h0, by omega⟩, ⟨c1, h1, by omega⟩⟩
  · intro h
    rw [canonicalOf_unique h4 (normCells_canonicalOf p.cells h)]

theorem rotatedFour_nil (p : Piece) (h : p.cells = []) : rotatedFour p = normalize p := by
  rw [rotatedFour_cells, normalize_eq, h]
  rfl

/-! ### Machine arithmetic: `rotated90` -/

theorem machine_rotated90_eq (p : Piece) (h : TurnsExactly p) :
    Machine.rotated90 p = rotated90 p := by
  obtain ⟨hneg, hres⟩ := h
  have hmap : (p.cells.map fun c => (⟨c.y, wrap32 (-c.x)⟩ : Pt)) = p.cells.map turn := by
    apply List.map_congr_left
    intro c hc
    simp only [turn, wrap32_of_fits _ (hneg c hc)]
  unfold Machine.rotated90
  rw [hmap]
  rw [machine_normalize_of_exact]
  · rfl
  · exact hres

theorem machine_rotatedFour_eq (p : Piece) (h : FourTurnsExactly p) :
    Machine.rotatedFour p = rotatedFour p := by
  obtain ⟨h1, h2, h3, h4⟩ := h
  unfold Machine.rotatedFour rotatedFour
  rw [machine_rotated90_eq p h1, machine_rotated90_eq _ h2, machine_rotated90_eq _ h3,
    machine_rotated90_eq _ h4]

theorem machine_rotatedFour_flags (p : Piece) :
    (Machine.rotatedFour p).color = p.color ∧ (Machine.rotatedFour p).used = p.used :=
  ⟨rfl, rfl⟩

/-! ### Pieces with offsets within `±10^9` -/

theorem normCells_box (l : List Pt) (hne : l ≠ [])
    (hbox : ∀ c ∈ l, (-1000000000 ≤ c.x ∧ c.x ≤ 1000000000) ∧
      (-1000000000 ≤ c.y ∧ c.y ≤ 1000000000)) :
    Canonical (normCells l) ∧
    ∀ c ∈ normCells l, c.x ≤ 2000000000 ∧ c.y ≤ 2000000000 := by
  obtain ⟨c1, hc1⟩ := List.exists_mem_of_ne_nil _ hne
  have hfound : MinimaFound l :=
    ⟨⟨c1, hc1, (hbox c1 hc1).1.2⟩, ⟨c1, hc1, (hbox c1 hc1).2.2⟩⟩
  refine ⟨(normCells_canonicalOf l hfound).1, ?_⟩
  intro c hc
  obtain ⟨c0, h0, e⟩ := (mem_normCells l c).1 hc
  subst e
  have hm := minXY_ge l (-1000000000) (-1000000000) (by omega) (by omega)
    (fun c hc => ⟨(hbox c hc).1.1, (hbox c hc).2.1⟩)
  have := hbox c0 h0
  simp only [shiftBy]
  omega

theorem canonical_turn_bounded (a : List Pt) (hc : Canonical a)
    (hb : ∀ c ∈ a, c.x ≤ 2000000000 ∧ c.y ≤ 2000000000) :
    Canonical (normCells (a.map turn)) ∧
    ∀ c ∈ normCells (a.map turn), c.x ≤ 2000000000 ∧ c.y ≤ 2000000000 := by
  refine ⟨(canonicalOf_turn (canonicalOf_self hc)).1, ?_⟩
  obtain ⟨_, _, hx0, _, hy0⟩ := hc
  intro c hcm
  obtain ⟨c0, h0, e⟩ := (mem_normCells _ c).1 hcm
  subst e
  obtain ⟨a0, ha0, rfl⟩ := List.mem_map.1 h0
  have hm := minXY_ge (a.map turn) 0 (-2000000000) (by omega) (by omega) (by
    intro c hc
    obtain ⟨a1, ha1, rfl⟩ := List.mem_map.1 hc
    have := hb a1 ha1
    have := hx0 a1 ha1
    have := hy0 a1 ha1
    simp only [turn]
    omega)
  have := hb a0 ha0
  have := hx0 a0 ha0
  have := hy0 a0 ha0
  simp only [shiftBy, turn]
  omega

theorem turnsExactly_of_canonical (p : Piece) (hc : Canonical p.cells)
    (hb : ∀ c ∈ p.cells, c.x ≤ 2000000000 ∧ c.y ≤ 2000000000) :
    TurnsExactly p ∧ Canonical (rotated90 p).cells ∧
    ∀ c ∈ (rotated90 p).cells, c.x ≤ 2000000000 ∧ c.y ≤ 2000000000 := by
  obtain ⟨hcan, hbound⟩ := canonical_turn_bounded p.cells hc hb
  have hpos := hcan.2.2
  refine ⟨⟨?_, ?_⟩, hcan, hbound⟩
  · intro c hcm
    have := hb c hcm
    have := hc.2.2.1 c hcm
    unfold Fits32
    omega
  · intro c hcm
    have h1 := hbound c hcm
    have h2 := hpos.1 c hcm
    have h3 := hpos.2.2 c hcm
    unfold Fits32
    omega

/-- A non-empty piece with all offsets within `±10^9`: no operation of the four
turns or of `normalize` overflows, and the minima are found. -/
theorem box_runs_exactly (p : Piece) (hne : p.cells ≠ [])
    (hbox : ∀ c ∈ p.cells, (-1000000000 ≤ c.x ∧ c.x ≤ 1000000000) ∧
      (-1000000000 ≤ c.y ∧ c.y ≤ 1000000000)) :
    FourTurnsExactly p ∧ NormalizesExactly p ∧
    ((∃ c ∈ p.cells, c.x ≤ 1000000000) ∧ (∃ c ∈ p.cells, c.y ≤ 1000000000)) := by
  obtain ⟨c1, hc1⟩ := List.exists_mem_of_ne_nil _ hne
  have hturnbox : ∀ c ∈ p.cells.map turn, (-1000000000 ≤ c.x ∧ c.x ≤ 1000000000) ∧
      (-1000000000 ≤ c.y ∧ c.y ≤ 1000000000) := by
    intro c hc
    obtain ⟨a, ha, rfl⟩ := List.mem_map.1 hc
    have := hbox a ha
    simp only [turn]
    omega
  obtain ⟨hcan1, hb1⟩ := normCells_box (p.cells.map turn) (by simpa using hne) hturnbox
  have hT1 : TurnsExactly p := by
    refine ⟨?_, ?_⟩
    · intro c hc
      have := hbox c hc
      unfold Fits32; omega
    · intro c hc
      have h1 := hb1 c hc
      have h2 := hcan1.2.2.1 c hc
      have h3 := hcan1.2.2.2.2 c hc
      unfold Fits32; omega
  obtain ⟨hT2, hcan2, hb2⟩ := turnsExactly_of_canonical (rotated90 p) hcan1 hb1
  obtain ⟨hT3, hcan3, hb3⟩ := turnsExactly_of_canonical _ hcan2 hb2
  obtain ⟨hT4, _, _⟩ := turnsExactly_of_canonical _ hcan3 hb3
  obtain ⟨hcan0, hb0⟩ := normCells_box p.cells hne hbox
  refine ⟨⟨hT1, hT2, hT3, hT4⟩, ?_, ⟨c1, hc1, (hbox c1 hc1).1.2⟩, ⟨c1, hc1, (hbox c1 hc1).2.2⟩⟩
  intro c hc
  have h1 := hb0 c hc
  have h2 := hcan0.2.2.1 c hc
  have h3 := hcan0.2.2.2.2 c hc
  unfold Fits32; omega

theorem machine_nil (p : Piece) (h : p.cells = []) :
    Machine.rotatedFour p = Machine.normalize p := by
  have e : p = { p with cells := [] } := by rw [← h]
  rw [e]
  rfl

theorem canonical_turn_le (a : List Pt) (m : Int) (hm0 : 0 ≤ m) (hc : Canonical a)
    (hb : ∀ c ∈ a, c.x ≤ m ∧ c.y ≤ m) :
    ∀ c ∈ normCells (a.map turn), c.x ≤ m ∧ c.y ≤ m := by
  obtain ⟨_, _, hx0, _, hy0⟩ := hc
  intro c hcm
  obtain ⟨c0, h0, e⟩ := (mem_normCells _ c).1 hcm
  subst e
  obtain ⟨a0, ha0, rfl⟩ := List.mem_map.1 h0
  have hmin := minXY_ge (a.map turn) 0 (-m) (by omega) (by omega) (by
    intro c hc
    obtain ⟨a1, ha1, rfl⟩ := List.mem_map.1 hc
    have := hb a1 ha1
    have := hx0 a1 ha1
    have := hy0 a1 ha1
    simp only [turn]
    omega)
  have := hb a0 ha0
  have := hx0 a0 ha0
  have := hy0 a0 ha0
  simp only [shiftBy, turn]
  omega

theorem tidy_turn {cs : List Pt} (h : Tidy cs) : Tidy (normCells (cs.map turn)) :=
  ⟨wellFormed_turn h.1,
    canonical_turn_le cs 3 (by omega) ((wellFormed_iff cs).1 h.1).2 h.2⟩

theorem refillOffers_tidy (s : Game) (d : Draws) (i : Fin 3) :
    Tidy ((refillOffers s d).offers i).cells := by
  unfold refillOffers
  by_cases hf : s.firstDeal = true
  · simp only [hf, if_true]
    fin_cases i
    · show Tidy (makeRect 3 3 _).cells
      rw [makeRect_3_3_cells]; decide
    · show Tidy (makeRect 3 3 _).cells
      rw [makeRect_3_3_cells]; decide
    · show Tidy (makeRect 2 3 _).cells
      rw [makeRect_2_3_cells]; decide
  · simp only [hf, Bool.false_eq_true, if_false]
    show Tidy (randomPiece _ (d.shape i).val).cells
    rw [randomPiece_cells]
    generalize d.shape i = t
    fin_cases t <;> decide

theorem loopBody_offers_invariant (P : List Pt → Prop)
    (hrefill : ∀ (s : Game) (d : Draws) (i : Fin 3), P ((refillOffers s d).offers i).cells)
    (hturn : ∀ cs, P cs → P (normCells (cs.map turn)))
    (g0 g1 : Game) (key : Option Key) (d : Draws) (hstep : loopBody g0 key d = some g1)
    (ih : ∀ i, P (g0.offers i).cells) : ∀ i, P (g1.offers i).cells := by
  intro i
  have ih' : ∀ j, P ((tick g0).offers j).cells := ih
  rw [loopBody_eq] at hstep
  by_cases hm : anyMovePossible (tick g0) = true
  · simp only [hm, if_true] at hstep
    have hrot : ∀ j, P ((rotateSelected (tick g0)).offers j).cells := by
      intro j
      unfold rotateSelected
      by_cases hu : ((tick g0).offers (tick g0).selected).used = true
      · simp only [hu, if_true]; exact ih' j
      · simp only [hu, Bool.false_eq_true, if_false]
        by_cases hj : j = (tick g0).selected
        · subst hj
          simp only [Function.update_same, rotated90_eq]
          exact hturn _ (ih' _)
        · simp only [Function.update, hj, dite_false]; exact ih' j
    have hplace : ∀ g', placeCommand (tick g0) d = some g' → P (g'.offers i).cells := by
      intro g' hcmd
      by_cases hu : ((tick g0).offers (tick g0).selected).used = false
      · by_cases hp : canPlace (tick g0) ((tick g0).offers (tick g0).selected)
            (tick g0).cursorX (tick g0).cursorY = true
        · obtain ⟨b', hb', _⟩ := placePiece_eq (tick g0) _ _ _ hp
          rw [placeCommand_eq (tick g0) d _ hu hp hb'] at hcmd
          simp only [Option.some.injEq] at hcmd
          rw [← hcmd]
          split
          · exact hrefill _ d i
          · rw [(clearLines_fields _).1, markUsedAndAutoSelect_offers]
            by_cases hi : i = (tick g0).selected
            · subst hi
              simp only [Function.update_same]
              exact ih' _
            · simp only [Function.update, hi, dite_false]; exact ih' i
        · rw [placeCommand_of_blocked _ d (by simpa using hp)] at hcmd
          simp only [Option.some.injEq] at hcmd; subst hcmd; exact ih' i
      · rw [placeCommand_of_used _ d (by simpa using hu)] at hcmd
        simp only [Option.some.injEq] at hcmd; subst hcmd; exact ih' i
    cases key with
    | none => simp only [Option.some.injEq] at hstep; subst hstep; exact ih' i
    | some k =>
      cases k with
      | KEY_ESCAPE => simp only [Option.some.injEq] at hstep; subst hstep; exact ih' i
      | KEY_ENTER => exact hplace _ hstep
      | letterR =>
        simp only [handleKey, Option.some.injEq] at hstep; subst hstep
        exact hrot i
      | _ =>
        simp only [handleKey, Option.some.injEq] at hstep
        subst hstep; exact ih' i
  · simp only [hm, Bool.false_eq_true, if_false, Option.some.injEq] at hstep
    subst hstep
    exact hrefill _ d i

/-- A property of cell lists that every refill establishes and every quarter
turn keeps holds of all three offers in every reachable state. -/
theorem offers_invariant (P : List Pt → Prop)
    (hrefill : ∀ (s : Game) (d : Draws) (i : Fin 3), P ((refillOffers s d).offers i).cells)
    (hturn : ∀ cs, P cs → P (normCells (cs.map turn)))
    (g : Game) (hr : Reachable g) : ∀ i, P (g.offers i).cells := by
  induction hr with
  | start d => exact hrefill _ d
  | step key d _ _ hstep ih =>
    exact loopBody_offers_invariant P hrefill hturn _ _ key d hstep ih

theorem tidy_of_reachable (g : Game) (hr : Reachable g) (i : Fin 3) :
    Tidy (g.offers i).cells :=
  offers_invariant Tidy refillOffers_tidy (fun _ h => tidy_turn h) g hr i

/-- In every reachable state the exact functions are the 32-bit ones: on each
offer `normalize` and `rotated90` agree with their machine versions, and so
does `canPlace` at every origin `(x, y)` with `-2147483648 ≤ x, y ≤ 2147483644`
(all origins the game uses lie in `0..7`). -/
theorem machine_agrees_of_reachable (g : Game) (hr : Reachable g) (i : Fin 3) :
    Machine.normalize (g.offers i) = normalize (g.offers i) ∧
    Machine.rotated90 (g.offers i) = rotated90 (g.offers i) ∧
    ∀ x y : Int, -2147483648 ≤ x → x ≤ 2147483644 → -2147483648 ≤ y → y ≤ 2147483644 →
      Machine.canPlace g (g.offers i) x y = canPlace g (g.offers i) x y := by
  obtain ⟨hwf, hsmall⟩ := tidy_of_reachable g hr i
  have hcan := ((wellFormed_iff _).1 hwf).2
  have hpos : ∀ c ∈ (g.offers i).cells, 0 ≤ c.x ∧ 0 ≤ c.y :=
    fun c hc => ⟨hcan.2.2.1 c hc, hcan.2.2.2.2 c hc⟩
  refine ⟨?_, ?_, ?_⟩
  · apply machine_normalize_eq_of_span _ (canonical_found hcan).1 (canonical_found hcan).2
    intro a ha b hb
    have := hsmall a ha
    have := hpos b hb
    omega
  · apply machine_rotated90_eq
    obtain ⟨hcan', hsmall'⟩ := tidy_turn ⟨hwf, hsmall⟩
    have hcan2 := ((wellFormed_iff _).1 hcan').2
    refine ⟨?_, ?_⟩
    · intro c hc
      have := hsmall c hc
      have := hpos c hc
      unfold Fits32; omega
    · intro c hc
      have h1 := hsmall' c hc
      have h2 := hcan2.2.2.1 c hc
      have h3 := hcan2.2.2.2.2 c hc
      unfold Fits32; omega
  · intro x y hx0 hx1 hy0 hy1
    apply machine_canPlace_eq
    intro c hc
    have := hsmall c hc
    have := hpos c hc
    unfold Fits32; omega

end BlockBlast
